import Mathlib

/-!
Verification of the autodict conversion engine (src/src/autodict/).

This file gives a shallow embedding of the registry-based object to
structured-data conversion engine: Python values become the inductive
`PyVal`, candidate target types become `TypeRef`, raised exceptions become
an `Except Err` result, and the recursive engine `AutoDict.to_dict` /
`AutoDict.from_dict` becomes the fuel-indexed functions `toDictF` /
`fromDictF`.  The predefined strategies (`default_to_dict`,
`default_from_dict`, `enum_to_dict`, `enum_from_dict`,
`dataclass_from_dict`, `default_value`) and the helper functions
(`strip_class`, `embed_class`, `stable_map`, the union branch of
`_items_from_dict_generic_non_collection`) are translated one by one from
the source.
-/

namespace Autodict

/-- A Python value, as far as the conversion engine observes it: the
builtin leaves, ordered sequences (`list`), ordered string-keyed mappings
(`dict`), user-class instances carrying their class name and their
`__dict__` attribute map in insertion order, and the
`inspect.Parameter.empty` sentinel that `default_from_dict` passes for an
unmatched constructor parameter. -/
inductive PyVal where
  | none
  | bool (b : Bool)
  | int (n : Int)
  | str (s : String)
  | list (xs : List PyVal)
  | dict (kvs : List (String × PyVal))
  | obj (cls : String) (attrs : List (String × PyVal))
  | paramEmpty

/-- The builtin classes the engine distinguishes (`is_builtin` is true for
all of them: their module is `builtins`). -/
inductive BTy where
  | noneTy
  | boolTy
  | intTy
  | strTy
  | listTy
  | dictTy
deriving DecidableEq

/-- A candidate target type, as passed to `from_dict`: a user class (by
class name), a builtin class, or a `typing` generic (`List[t]`,
`Union[...]`, `Literal[...]`). -/
inductive TypeRef where
  | cls (c : String)
  | builtinT (b : BTy)
  | listOf (t : TypeRef)
  | union (ts : List TypeRef)
  | literal (vs : List PyVal)

/-- The exceptions the modelled code can raise. -/
inductive Err where
  | unableToDict (c : String)
  | unableFromDict (c : String)
  | multiMatch (ts : List TypeRef)
  | popitemEmpty
  | attrError
  | typeErr
  | assertErr
  | inconsistentEnum
  | keyError (k : String)
  | valueError
  | missingDefault (field : String)
  | fuelOut

/-- The `Options` dataclass (src/src/autodict/options.py): three
independent boolean flags, all defaulting to true. -/
structure Options where
  recursively : Bool := true
  strict : Bool := true
  with_cls : Bool := true
deriving DecidableEq

mutual

/-- Structural equality test on Python values (Python `==` for the values
the model covers, all of which have structurally defined equality). -/
def pvBeq : PyVal → PyVal → Bool
  | .none, .none => true
  | .bool a, .bool b => a == b
  | .int a, .int b => a == b
  | .str a, .str b => a == b
  | .list xs, .list ys => pvBeqL xs ys
  | .dict a, .dict b => pvBeqKV a b
  | .obj c a, .obj d b => c == d && pvBeqKV a b
  | .paramEmpty, .paramEmpty => true
  | _, _ => false

/-- Elementwise `pvBeq` on sequences. -/
def pvBeqL : List PyVal → List PyVal → Bool
  | [], [] => true
  | x :: xs, y :: ys => pvBeq x y && pvBeqL xs ys
  | _, _ => false

/-- Entrywise `pvBeq` on ordered mappings. -/
def pvBeqKV : List (String × PyVal) → List (String × PyVal) → Bool
  | [], [] => true
  | (k, v) :: xs, (k2, v2) :: ys => k == k2 && pvBeq v v2 && pvBeqKV xs ys
  | _, _ => false

end

/-- Lookup in an ordered association list (a Python `dict` read). -/
def assocGet {α : Type} (l : List (String × α)) (k : String) : Option α :=
  match l with
  | [] => Option.none
  | (k2, v) :: rest => if k2 = k then some v else assocGet rest k

/-- Deletion of a key from an ordered association list (a Python
`del d[k]`; a real dict has the key at most once). -/
def assocErase {α : Type} (l : List (String × α)) (k : String) : List (String × α) :=
  match l with
  | [] => []
  | (k2, v) :: rest => if k2 = k then rest else (k2, v) :: assocErase rest k

/-- Write of a key in an ordered association list (a Python
`d[k] = v`: an existing key keeps its position, a new key is appended). -/
def assocSet {α : Type} (l : List (String × α)) (k : String) (v : α) : List (String × α) :=
  match l with
  | [] => [(k, v)]
  | (k2, v2) :: rest => if k2 = k then (k2, v) :: rest else (k2, v2) :: assocSet rest k v

/-- Sequencing of a fallible map over a list (Python list/dict
comprehensions over a mapper that can raise). -/
def mapE {α β : Type} (f : α → Except Err β) : List α → Except Err (List β)
  | [] => .ok []
  | a :: as => do
    let b ← f a
    let bs ← mapE f as
    .ok (b :: bs)

mutual

/-- Equality test on type references (used for the candidate-keyed
`cand_objects` dict of the union branch). -/
def trBeq : TypeRef → TypeRef → Bool
  | .cls a, .cls b => a == b
  | .builtinT a, .builtinT b => a == b
  | .listOf a, .listOf b => trBeq a b
  | .union a, .union b => trBeqL a b
  | .literal a, .literal b => pvBeqL a b
  | _, _ => false

/-- Elementwise `trBeq`. -/
def trBeqL : List TypeRef → List TypeRef → Bool
  | [], [] => true
  | x :: xs, y :: ys => trBeq x y && trBeqL xs ys
  | _, _ => false

end

/-- A constructor parameter of a user class: its name and, when declared,
its default value (`inspect.Parameter.default`; `Option.none` models the
`Parameter.empty` marker for a parameter without a default). -/
structure Param where
  name : String
  default : Option PyVal

/-- What the model knows about a user class: its `__init__` parameters
after `self`, all of kind POSITIONAL_OR_KEYWORD, in declaration order, and
its field annotations (`get_type_hints`).  Model classes are plain
attribute-bag classes: not dataclasses, not enums, not `Dictable`
subclasses, and without name-mangled private attributes (so
`strip_hidden_member_prefix` is the identity on their keys). -/
structure ClassDef where
  params : List Param := []
  anns : List (String × TypeRef) := []

/-- The encode half of a registered strategy.  The engine model covers the
two strategies the claims exercise: `predefined.default_to_dict` and the
always-failing `predefined.unable_to_dict` used to fill a partial
registration. -/
inductive ToStrat where
  | defaultTo
  | unableTo
deriving DecidableEq

/-- The decode half of a registered strategy: `predefined.default_from_dict`
or the always-failing `predefined.unable_from_dict`. -/
inductive FromStrat where
  | defaultFrom
  | unableFrom
deriving DecidableEq

/-- A strategy registry entry (the `Meta` dataclass of
src/src/autodict/autodict.py): the name embedded into dicts plus the two
conversion functions. -/
structure Meta where
  regName : String
  toS : ToStrat
  fromS : FromStrat

/-- Modelled from the spec: the process-wide state the engine reads.
`classes` is Python's class table (what `inspect.signature` and
`get_type_hints` see, keyed by class identity), and `reg` is the strategy
registry of the external `registry` package, which the spec describes as a
map from type to strategy entry that is addressable both by type and by
registered name (spec section 4.3). -/
structure World where
  classes : List (String × ClassDef)
  reg : List (String × Meta)

/-- Modelled from the spec: `AutoDict.query(name=...)`, the name-to-type
lookup of the strategy registry; returns the first class registered under
that name, or nothing when the name is unregistered. -/
def queryName (W : World) (s : String) : Option String :=
  go W.reg
where
  go : List (String × Meta) → Option String
    | [] => Option.none
    | (c, m) :: rest => if m.regName = s then some c else go rest

/-- `isinstance` against a builtin class (note Python's `bool` is a
subclass of `int`). -/
def isinstB : PyVal → BTy → Bool
  | .none, .noneTy => true
  | .bool _, .boolTy => true
  | .bool _, .intTy => true
  | .int _, .intTy => true
  | .str _, .strTy => true
  | .list _, .listTy => true
  | .dict _, .dictTy => true
  | _, _ => false

/-- `inspect_generic_origin` (src/src/autodict/types.py): the origin class
of a parameterized generic (`List[t]` has origin `list`); plain classes
and builtin classes have none.  `Union` and `Literal` are handled by the
caller (their origin is the bare `typing` special form). -/
def genericOrigin : TypeRef → Option TypeRef
  | .listOf _ => some (.builtinT .listTy)
  | _ => Option.none

/-- The pre-filter of the union branch: `is_builtin(cand_orig_cls) and not
isinstance(obj, cand_orig_cls)` skips the candidate; `isinstance` against
a bare `typing` special form (a nested `Union`/`Literal` member, whose
module makes `is_builtin` true) raises a `TypeError` outside the
`try` block. -/
def instFilter (cur : PyVal) : TypeRef → Except Err Bool
  | .builtinT b => .ok (isinstB cur b)
  | .cls _ => .ok true
  | .listOf _ => .ok true
  | .union _ => .error .typeErr
  | .literal _ => .error .typeErr

/-- `ins.__dict__.update(post_init_values)`: existing keys are overwritten
in place, new keys are appended. -/
def applyUpdates (base : List (String × PyVal)) : List (String × PyVal) → List (String × PyVal)
  | [] => base
  | (k, v) :: rest => applyUpdates (assocSet base k v) rest

/-- `predefined.default_from_dict`: match the tree's keys against the
`__init__` parameters (all POSITIONAL_OR_KEYWORD in the model, and with
`strip_hidden_member_prefix` the identity); matched parameters are passed
positionally in declaration order, unmatched ones are passed by keyword
with their default (`Parameter.empty` when absent).  The call
`cls(*positional, **keyword)` binds the positional values to the first
parameters, so a keyword argument colliding with one of those raises
`TypeError`; on success the constructor assigns each parameter to its
attribute and the keys not consumed by a parameter are applied onto
`ins.__dict__`.  A tree without `.items()` (a non-mapping) raises
`AttributeError`. -/
def default_from_dict (c : String) (cd : ClassDef) (obj : PyVal) : Except Err PyVal :=
  match obj with
  | .dict kvs =>
    let matched := cd.params.filter (fun p => (assocGet kvs p.name).isSome)
    let unmatched := cd.params.filter (fun p => (assocGet kvs p.name).isNone)
    let pos := matched.map (fun p => (assocGet kvs p.name).getD PyVal.none)
    let kw := unmatched.map (fun p => (p.name, p.default.getD PyVal.paramEmpty))
    let posNames := (cd.params.map Param.name).take pos.length
    if unmatched.any (fun p => decide (p.name ∈ posNames)) then
      .error .typeErr
    else
      let initNames := matched.map Param.name
      let post := kvs.filter (fun kv => decide (kv.1 ∉ initNames))
      .ok (.obj c (applyUpdates (posNames.zip pos ++ kw) post))
  | _ => .error .attrError

/-- `predefined.default_to_dict`: a shallow copy of the instance's
`__dict__`; raises `AttributeError` on a value without one (never reached
by the engine, which only applies it to class instances). -/
def default_to_dict : PyVal → Except Err PyVal
  | .obj _ attrs => .ok (.dict attrs)
  | _ => .error .attrError

/-- `strip_class` (src/src/autodict/autodict.py:293): if the tree is a
mapping containing the reserved key `"@"`, resolve the tag through the
registry's name lookup; a resolved tag is deleted from the mapping in
place, and the resolved class replaces the candidate; an unresolved tag
raises `UnableFromDict` when there is no candidate and strictness is on,
and is otherwise left in the mapping.  Returns the class to use together
with the caller-visible mapping. -/
def strip_class (W : World) (obj : PyVal) (cand : Option TypeRef) (opts : Options) :
    Except Err (Option TypeRef × PyVal) :=
  match obj with
  | .dict kvs =>
    match assocGet kvs "@" with
    | Option.none => .ok (cand, .dict kvs)
    | some tagv =>
      let name? : Option String := match tagv with | .str s => some s | _ => Option.none
      match name?.bind (queryName W) with
      | some c => .ok (some (.cls c), .dict (assocErase kvs "@"))
      | Option.none =>
        if cand.isNone ∧ opts.strict then
          .error (.unableFromDict (match tagv with | .str s => s | _ => "?"))
        else
          .ok (cand, .dict kvs)
  | v => .ok (cand, v)

/-- `embed_class` (src/src/autodict/autodict.py:269): when tag embedding
is requested, the class is not builtin and the encoded tree is a mapping,
write the registered name under `"@"`; an unregistered class would have to
be a dataclass or an enum to use its own name, and the model's plain
classes are neither, so that case raises `UnableToDict`. -/
def embed_class (W : World) (ins : PyVal) (obj : PyVal) (opts : Options) : Except Err PyVal :=
  if opts.with_cls then
    match ins with
    | .obj c _ =>
      match obj with
      | .dict kvs =>
        match assocGet W.reg c with
        | some m => .ok (.dict (assocSet kvs "@" (.str m.regName)))
        | Option.none => .error (.unableToDict c)
      | v => .ok v
    | .paramEmpty =>
      match obj with
      | .dict _ => .error (.unableToDict "Parameter.empty")
      | v => .ok v
    | _ => .ok obj
  else
    .ok obj

/-- `stable_map` (src/src/autodict/types.py): map a fallible transformer
over the items of a collection, keeping its concrete kind — values of a
mapping (the mapper also receives the key), elements of a sequence (the
mapper receives no usable key: the source passes the integer index, which
annotation lookup never matches); any other value is returned unchanged. -/
def stableMapE (obj : PyVal) (f : PyVal → Option String → Except Err PyVal) : Except Err PyVal :=
  match obj with
  | .dict kvs =>
    (mapE (fun kv => do
      let v ← f kv.2 (some kv.1)
      .ok (kv.1, v)) kvs).map .dict
  | .list xs => (mapE (fun x => f x Option.none) xs).map .list
  | v => .ok v

/-- Write into the candidate-keyed `cand_objects` dict of the union
branch: an already-present candidate keeps its position, a new one is
appended (Python dict insertion-order semantics). -/
def assocSetT (l : List (TypeRef × PyVal)) (t : TypeRef) (v : PyVal) : List (TypeRef × PyVal) :=
  match l with
  | [] => [(t, v)]
  | (t2, v2) :: rest =>
    if trBeq t2 t then (t2, v) :: rest else (t2, v2) :: assocSetT rest t v

/-- The candidate loop of `_items_from_dict_generic_non_collection`
(src/src/autodict/autodict.py:369): each union member is first run through
the builtin-instance pre-filter; a surviving member is converted with a
full recursive `from_dict` call, and — note the source's reassignment of
`obj` — a success replaces the working value for the subsequent members
while a failure is swallowed.  Returns the final working value together
with the `cand_objects` success dict. -/
def unionLoop (rec : PyVal → Option TypeRef → Except Err PyVal) :
    List TypeRef → PyVal → List (TypeRef × PyVal) →
    Except Err (PyVal × List (TypeRef × PyVal))
  | [], cur, acc => .ok (cur, acc)
  | t :: ts, cur, acc => do
    let keep ← instFilter cur ((genericOrigin t).getD t)
    if keep then
      match rec cur (some t) with
      | .ok v => unionLoop rec ts v (assocSetT acc t v)
      | .error _ => unionLoop rec ts cur acc
    else
      unionLoop rec ts cur acc

/-- The union case of `_items_from_dict_generic_non_collection`: run the
candidate loop; more than one success is the ambiguity `ValueError`
listing all matches; otherwise `cand_objects.popitem()[-1]` returns the
last recorded success — and raises `KeyError` on the empty dict when no
candidate succeeded. -/
def unionBranch (rec : PyVal → Option TypeRef → Except Err PyVal)
    (ts : List TypeRef) (obj : PyVal) : Except Err PyVal := do
  let (_, ms) ← unionLoop rec ts obj []
  if 1 < ms.length then
    .error (.multiMatch (ms.map Prod.fst))
  else
    match ms.getLast? with
    | some (_, v) => .ok v
    | Option.none => .error .popitemEmpty

/-- `_items_from_dict` (src/src/autodict/autodict.py:327): choose the
per-item recursion scheme from the candidate class.  The model's user
classes are never dataclasses, so the first applicable branch for them is
`_items_from_dict_annotated_class` (every class exposes `__annotations__`;
a class without annotated fields behaves identically under the annotated
and the untyped branch, since every lookup misses); a generic collection
recurses elementwise with the template argument; a union or literal goes
to the generic non-collection branch; anything else — no candidate, or a
builtin class — recurses untyped into collection items. -/
def itemsFromDict (rec : PyVal → Option TypeRef → Except Err PyVal) (W : World)
    (obj : PyVal) (cand : Option TypeRef) : Except Err PyVal :=
  match cand with
  | some (.cls c) =>
    let ann := ((assocGet W.classes c).map ClassDef.anns).getD []
    stableMapE obj (fun v k => rec v (k.bind (assocGet ann)))
  | some (.listOf t) =>
    match obj with
    | .list xs => (mapE (fun x => rec x (some t)) xs).map .list
    | _ => .error .typeErr
  | some (.union ts) => unionBranch rec ts obj
  | some (.literal vs) =>
    if vs.any (pvBeq obj) then .ok obj else .error .assertErr
  | some (.builtinT _) => stableMapE obj (fun v _ => rec v Option.none)
  | Option.none => stableMapE obj (fun v _ => rec v Option.none)

/-- The strategy-selection step of `AutoDict.from_dict`
(src/src/autodict/autodict.py:253): a registered class uses its registered
decode; an unregistered plain class (never a dataclass or enum in the
model) passes the tree through when strictness is off and raises
`UnableFromDict` otherwise; no class, a builtin class, or a `typing`
construct (whose module makes `is_builtin` true) passes the tree
through. -/
def dispatch (W : World) (cand : Option TypeRef) (obj : PyVal) (opts : Options) :
    Except Err PyVal :=
  match cand with
  | some (.cls c) =>
    match assocGet W.reg c with
    | some m =>
      match m.fromS with
      | .defaultFrom => default_from_dict c ((assocGet W.classes c).getD {}) obj
      | .unableFrom => .error (.unableFromDict c)
    | Option.none => if opts.strict then .error (.unableFromDict c) else .ok obj
  | some _ => .ok obj
  | Option.none => .ok obj

/-- The phases of `AutoDict.from_dict` after `strip_class`: the optional
per-item recursion, then strategy selection. -/
def fromBody (recf : PyVal → Option TypeRef → Except Err PyVal) (W : World)
    (obj : PyVal) (cand : Option TypeRef) (opts : Options) : Except Err PyVal := do
  let obj2 ← if opts.recursively then itemsFromDict recf W obj cand else .ok obj
  dispatch W cand obj2 opts

/-- `AutoDict.from_dict` (src/src/autodict/autodict.py:233), indexed by
recursion fuel: strip and resolve the embedded tag, recurse into items,
then apply the selected decode strategy. -/
def fromDictF : Nat → World → PyVal → Option TypeRef → Options → Except Err PyVal
  | 0, _, _, _, _ => .error .fuelOut
  | fuel + 1, W, obj, cand, opts => do
    let (cand2, obj2) ← strip_class W obj cand opts
    fromBody (fun o c => fromDictF fuel W o c opts) W obj2 cand2 opts

/-- The strategy-selection step of `AutoDict.to_dict`
(src/src/autodict/autodict.py:213): a registered class uses its registered
encode; the model's plain classes are never `Dictable` subclasses,
dataclasses or enums, so an unregistered one passes through when
strictness is off and raises `UnableToDict` otherwise; a builtin instance
passes through. -/
def encode_step (W : World) (ins : PyVal) (opts : Options) : Except Err PyVal :=
  match ins with
  | .obj c attrs =>
    match assocGet W.reg c with
    | some m =>
      match m.toS with
      | .defaultTo => default_to_dict (.obj c attrs)
      | .unableTo => .error (.unableToDict c)
    | Option.none =>
      if opts.strict then .error (.unableToDict c) else .ok (.obj c attrs)
  | .paramEmpty =>
    if opts.strict then .error (.unableToDict "Parameter.empty") else .ok .paramEmpty
  | v => .ok v

/-- `AutoDict.to_dict` (src/src/autodict/autodict.py:199), indexed by
recursion fuel: select the encode strategy for the instance's class, then
recurse into the items of the result, then embed the type tag. -/
def toDictF : Nat → World → PyVal → Options → Except Err PyVal
  | 0, _, _, _ => .error .fuelOut
  | fuel + 1, W, ins, opts => do
    let obj0 ← encode_step W ins opts
    let obj1 ←
      if opts.recursively then stableMapE obj0 (fun v _ => toDictF fuel W v opts)
      else .ok obj0
    embed_class W ins obj1 opts

mutual

/-- A value containing no user-class instance (and no sentinel): such a
value survives an untyped decode pass unchanged. -/
def objFree : PyVal → Bool
  | .obj _ _ => false
  | .paramEmpty => false
  | .list xs => objFreeL xs
  | .dict kvs => objFreeKV kvs
  | _ => true

/-- `objFree` on every element. -/
def objFreeL : List PyVal → Bool
  | [] => true
  | x :: xs => objFree x && objFreeL xs

/-- `objFree` on every mapping value. -/
def objFreeKV : List (String × PyVal) → Bool
  | [] => true
  | (_, v) :: kvs => objFree v && objFreeKV kvs

end

mutual

/-- A value structurally matches a declared annotation: a class annotation
names the instance's own class, a builtin annotation covers an instance of
that builtin containing no user objects, a `List[t]` annotation covers a
list of values matching `t`.  Union and literal annotations are outside
the well-formed fragment. -/
def FitsT (t : TypeRef) (v : PyVal) : Bool :=
  match t, v with
  | .cls c, .obj c2 _ => c == c2
  | .cls _, _ => false
  | .builtinT b, v => isinstB v b && objFree v
  | .listOf t2, .list xs => FitsL t2 xs
  | .listOf _, _ => false
  | .union _, _ => false
  | .literal _, _ => false

/-- `FitsT` on every element. -/
def FitsL (t : TypeRef) : List PyVal → Bool
  | [] => true
  | x :: xs => FitsT t x && FitsL t xs

end

/-- A candidate type is adequate for recovering a value: with tag
embedding on (`wc = true`) any value survives an absent annotation, since
its own tag drives the decode; with tag embedding off an absent annotation
only recovers object-free values; a present annotation must fit. -/
def annOK (wc : Bool) : Option TypeRef → PyVal → Bool
  | Option.none, v => wc || objFree v
  | some t, v => FitsT t v

mutual

/-- The well-formed instances over a world: no sentinel, mappings never
use the reserved key, and every user object is an instance of a class
registered with the default strategies, with its attribute map exactly
matching its constructor parameters (names in declaration order, no
duplicates, no reserved key), a registered name that resolves back to the
class, and every attribute compatible with its declared annotation. -/
def WFv (W : World) (wc : Bool) : PyVal → Bool
  | .none => true
  | .bool _ => true
  | .int _ => true
  | .str _ => true
  | .paramEmpty => false
  | .list xs => WFl W wc xs
  | .dict kvs => decide ("@" ∉ kvs.map Prod.fst) && WFkv W wc kvs
  | .obj c attrs =>
    match assocGet W.reg c, assocGet W.classes c with
    | some m, some cd =>
      decide (m.toS = .defaultTo) && decide (m.fromS = .defaultFrom) &&
      decide (queryName W m.regName = some c) &&
      decide (attrs.map Prod.fst = cd.params.map Param.name) &&
      decide ((attrs.map Prod.fst).Nodup) &&
      decide ("@" ∉ attrs.map Prod.fst) &&
      WFfields W wc cd.anns attrs
    | _, _ => false

/-- `WFv` on every element. -/
def WFl (W : World) (wc : Bool) : List PyVal → Bool
  | [] => true
  | x :: xs => WFv W wc x && WFl W wc xs

/-- `WFv` on every mapping value. -/
def WFkv (W : World) (wc : Bool) : List (String × PyVal) → Bool
  | [] => true
  | (_, v) :: kvs => WFv W wc v && WFkv W wc kvs

/-- Every attribute is well formed and compatible with its annotation. -/
def WFfields (W : World) (wc : Bool) (ann : List (String × TypeRef)) :
    List (String × PyVal) → Bool
  | [] => true
  | (k, v) :: rest => WFv W wc v && annOK wc (assocGet ann k) v && WFfields W wc ann rest

end

mutual

/-- Nesting depth of a value, bounding the fuel both engine directions
need. -/
def pyDepth : PyVal → Nat
  | .list xs => pyDepthL xs + 1
  | .dict kvs => pyDepthKV kvs + 1
  | .obj _ attrs => pyDepthKV attrs + 1
  | _ => 1

/-- Maximum `pyDepth` of the elements. -/
def pyDepthL : List PyVal → Nat
  | [] => 0
  | x :: xs => max (pyDepth x) (pyDepthL xs)

/-- Maximum `pyDepth` of the mapping values. -/
def pyDepthKV : List (String × PyVal) → Nat
  | [] => 0
  | (_, v) :: kvs => max (pyDepth v) (pyDepthKV kvs)

end

/-! ## The record-like (dataclass) decode strategy -/

/-- A dataclass field as `dataclass_from_dict` sees it
(src/src/autodict/dataclasses.py): name, static default, default factory
(modelled by the value the factory returns), whether the declared type is
`Optional[...]`, and whether the constructor accepts it. -/
structure DCField where
  name : String
  default : Option PyVal
  default_factory : Option PyVal
  isOptionalTy : Bool
  init : Bool

/-- `default_value` (src/src/autodict/dataclasses.py:25): the static
default if declared, else the default factory's result, else null for an
optional-typed field, else the missing-default `RuntimeError` naming the
field. -/
def default_value (f : DCField) : Except Err PyVal :=
  match f.default with
  | some d => .ok d
  | Option.none =>
    match f.default_factory with
    | some d => .ok d
    | Option.none =>
      if f.isOptionalTy then .ok PyVal.none else .error (.missingDefault f.name)

/-- The per-field choice of `dataclass_from_dict`: the tree's value when
the key is present, otherwise `default_value`. -/
def dc_field_value (obj : List (String × PyVal)) (f : DCField) : Except Err PyVal :=
  match assocGet obj f.name with
  | some v => .ok v
  | Option.none => default_value f

/-- `predefined.dataclass_from_dict` (src/src/autodict/predefined.py:229):
resolve every declared field in order, partition into constructor fields
and post-construction fields, build with the former (the generated
constructor assigns them in declaration order) and apply the latter onto
`__dict__`.  (The `InitVar` special case, where a constructor argument is
not stored as an attribute, is outside the model.) -/
def dataclass_from_dict (clsName : String) (fields : List DCField)
    (obj : List (String × PyVal)) : Except Err PyVal := do
  let resolved ← mapE (fun f => do
    let v ← dc_field_value obj f
    .ok (f, v)) fields
  let initVals := (resolved.filter (fun fv => fv.1.init)).map (fun fv => (fv.1.name, fv.2))
  let postVals := (resolved.filter (fun fv => !fv.1.init)).map (fun fv => (fv.1.name, fv.2))
  .ok (.obj clsName (initVals ++ postVals))

/-- The defaulting order as the spec words it: explicit value, else static
default, else default-factory result, else null when the declared type is
optional; nothing when decoding must fail for this field. -/
def specFieldChoice (obj : List (String × PyVal)) (f : DCField) : Option PyVal :=
  match assocGet obj f.name with
  | some v => some v
  | Option.none =>
    match f.default with
    | some d => some d
    | Option.none =>
      match f.default_factory with
      | some d => some d
      | Option.none => if f.isOptionalTy then some PyVal.none else Option.none

/-! ## The enumeration strategy -/

/-- An enumeration member: its declared name and its value. -/
structure EnumMember where
  name : String
  value : PyVal

/-- An enumeration: its members in definition order. -/
abbrev EnumDef := List EnumMember

/-- `predefined.enum_to_dict`: encode a member as its value and name. -/
def enum_to_dict (m : EnumMember) : PyVal :=
  .dict [("value", m.value), ("name", .str m.name)]

/-- The enum constructor call `cls(enum_value)`: the member with that
value (for an alias, the canonical first one), a `ValueError` when no
member has it. -/
def enum_ctor (E : EnumDef) (v : PyVal) : Except Err EnumMember :=
  match E.find? (fun m => pvBeq m.value v) with
  | some m => .ok m
  | Option.none => .error .valueError

/-- A Python subscript read `obj[k]`: `KeyError` when the key is absent,
`TypeError` when the value is not a mapping. -/
def keyGet (obj : PyVal) (k : String) : Except Err PyVal :=
  match obj with
  | .dict kvs =>
    match assocGet kvs k with
    | some v => .ok v
    | Option.none => .error (.keyError k)
  | _ => .error .typeErr

/-- `predefined.enum_from_dict` (src/src/autodict/predefined.py:194): read
the tree's name and value, reconstruct the member from the value alone,
then assert the reconstructed member's name equals the tree's name — a
mismatch is the inconsistent-enum `AssertionError`. -/
def enum_from_dict (E : EnumDef) (obj : PyVal) : Except Err EnumMember := do
  let nameV ← keyGet obj "name"
  let valV ← keyGet obj "value"
  let m ← enum_ctor E valV
  if pvBeq (.str m.name) nameV then .ok m else .error .inconsistentEnum

/-! ## The registration decorators (dictable / to_dictable / from_dictable) -/

namespace RegModel

/-- The encode functions a registration can store: the three predefined
providers, the always-failing filler, or a user-supplied custom
function. -/
inductive ToFn where
  | default_to_dict
  | dataclass_to_dict
  | enum_to_dict
  | unable_to_dict
  | customTo (n : Nat)
deriving DecidableEq

/-- The decode functions a registration can store. -/
inductive FromFn where
  | default_from_dict
  | dataclass_from_dict
  | enum_from_dict
  | unable_from_dict
  | customFrom (n : Nat)
deriving DecidableEq

/-- The `Meta` entry the decorators build: the registered name and the two
optional conversion functions (`dictable` always fills both). -/
structure RMeta where
  regName : String
  to_dict : Option ToFn
  from_dict : Option FromFn
deriving DecidableEq

/-- How `dictable` classifies the class being annotated. -/
inductive ClsKind where
  | dataclassK
  | enumK
  | plainK
deriving DecidableEq

/-- A Python class as the decorators see it: its identity-carrying
`__name__` and its structural kind. -/
structure PyCls where
  pyName : String
  kind : ClsKind

/-- Modelled from the spec: the strategy registry state of the external
`registry` package, an insert-or-overwrite map from class identity to its
`Meta` entry (spec section 4.3: `register` inserts or overwrites). -/
abbrev Reg := List (String × RMeta)

/-- `dictable` (src/src/autodict/autodict.py:55): pick default strategies
from the class's structural kind, let explicitly supplied functions win,
default the name to the class's own name, and register. -/
def dictable (R : Reg) (c : PyCls) (name : Option String)
    (toF : Option ToFn) (fr : Option FromFn) : Reg :=
  let defaults : ToFn × FromFn :=
    match c.kind with
    | .dataclassK => (.dataclass_to_dict, .dataclass_from_dict)
    | .enumK => (.enum_to_dict, .enum_from_dict)
    | .plainK => (.default_to_dict, .default_from_dict)
  Autodict.assocSet R c.pyName
    ⟨name.getD c.pyName, some (toF.getD defaults.1), some (fr.getD defaults.2)⟩

/-- `to_dictable` (src/src/autodict/autodict.py:92): keep the decode half
of an existing registration (`meta.from_dict or unable_from_dict`), fall
back to the always-failing `unable_from_dict` when the class is not yet
registered, and delegate to `dictable`. -/
def to_dictable (R : Reg) (c : PyCls) (name : Option String) (toF : Option ToFn) : Reg :=
  let fr : FromFn :=
    match Autodict.assocGet R c.pyName with
    | some m => m.from_dict.getD .unable_from_dict
    | Option.none => .unable_from_dict
  dictable R c name toF (some fr)

/-- `from_dictable` (src/src/autodict/autodict.py:111): keep the encode
half of an existing registration (`meta.to_dict or unable_to_dict`), fall
back to `unable_to_dict`, and delegate to `dictable`. -/
def from_dictable (R : Reg) (c : PyCls) (name : Option String) (fr : Option FromFn) : Reg :=
  let toF : ToFn :=
    match Autodict.assocGet R c.pyName with
    | some m => m.to_dict.getD .unable_to_dict
    | Option.none => .unable_to_dict
  dictable R c name (some toF) fr

end RegModel

/-! ## The caller-visible effect of from_dict on its input -/

/-- The caller-visible state of `from_dict`'s input mapping after the
call: `from_dict` applies `strip_class` directly to its argument, and the
resolved-tag deletion (`del obj[AutoDict.CLS_ANNO_KEY]`) is the only
top-level in-place mutation — every later phase builds fresh collections,
so the caller's mapping keeps its remaining entries.  On the error path no
deletion has happened.  The mapping's values are themselves recursed into,
so their own resolved tags are likewise deleted in place; this view tracks
the top level the claims speak about. -/
def fromDictCallerView (W : World) (obj : PyVal) (cand : Option TypeRef)
    (opts : Options) : PyVal :=
  match strip_class W obj cand opts with
  | .ok (_, obj2) => obj2
  | .error _ => obj

/-! ## Concrete worlds used by witnesses and counterexamples -/

/-- A world with the two nested plain classes of the spec's scenario 2:
`Point(x, y)` without annotations and `Line(a, b)` with both fields
annotated as `Point`, both registered with the default strategies. -/
def lineWorld : World :=
  { classes := [("Point", { params := [⟨"x", Option.none⟩, ⟨"y", Option.none⟩] }),
                ("Line", { params := [⟨"a", Option.none⟩, ⟨"b", Option.none⟩],
                           anns := [("a", .cls "Point"), ("b", .cls "Point")] })],
    reg := [("Point", ⟨"Point", .defaultTo, .defaultFrom⟩),
            ("Line", ⟨"Line", .defaultTo, .defaultFrom⟩)] }

/-- A `Point` instance. -/
def pointVal (x y : Int) : PyVal := .obj "Point" [("x", .int x), ("y", .int y)]

/-- A `Line` instance holding two `Point`s. -/
def lineVal : PyVal := .obj "Line" [("a", pointVal 1 2), ("b", pointVal 3 4)]

/-- A world with one registered plain class `A` with a no-argument
constructor. -/
def unionWorld : World :=
  { classes := [("A", {})], reg := [("A", ⟨"A", .defaultTo, .defaultFrom⟩)] }

/-- A world with one registered plain class `A` taking a single
constructor parameter `p`. -/
def tagWorld : World :=
  { classes := [("A", { params := [⟨"p", Option.none⟩] })],
    reg := [("A", ⟨"A", .defaultTo, .defaultFrom⟩)] }

/-- A world with a registered plain class `N`; the class `U` is
unregistered. -/
def strictWorld : World :=
  { classes := [("N", {})], reg := [("N", ⟨"N", .defaultTo, .defaultFrom⟩)] }

/-! ## Helper lemmas -/

theorem mapE_ok_of_forall {α β : Type} (f : α → Except Err β) (g : α → β) :
    ∀ l : List α, (∀ a ∈ l, f a = .ok (g a)) → mapE f l = .ok (l.map g) := by
  intro l
  induction l with
  | nil => intro _; rfl
  | cons a as ih =>
    intro h
    have ha := h a (by simp)
    have has := ih (fun x hx => h x (by simp [hx]))
    simp [mapE, ha, has, Bind.bind, Except.bind]

theorem mapE_error_at {α β : Type} (f : α → Except Err β) (e : Err) :
    ∀ (l1 : List α) (a : α) (l2 : List α),
      (∀ x ∈ l1, ∃ y, f x = .ok y) → f a = .error e →
      mapE f (l1 ++ a :: l2) = .error e := by
  intro l1
  induction l1 with
  | nil => intro a l2 _ ha; simp [mapE, ha, Bind.bind, Except.bind]
  | cons x xs ih =>
    intro a l2 h ha
    obtain ⟨y, hy⟩ := h x (by simp)
    have := ih a l2 (fun z hz => h z (by simp [hz])) ha
    simp [mapE, hy, this, Bind.bind, Except.bind]

theorem assocGet_append_isSome {α : Type} {k : String} :
    ∀ {l m : List (String × α)}, (assocGet l k).isSome →
      assocGet (l ++ m) k = assocGet l k := by
  intro l
  induction l with
  | nil => intro m h; simp [assocGet] at h
  | cons kv rest ih =>
    intro m h
    by_cases hk : kv.1 = k
    · simp [assocGet, hk]
    · simp [assocGet, hk] at h ⊢
      exact ih h

theorem assocGet_append_isNone {α : Type} {k : String} :
    ∀ {l m : List (String × α)}, assocGet l k = Option.none →
      assocGet (l ++ m) k = assocGet m k := by
  intro l
  induction l with
  | nil => intro m _; simp
  | cons kv rest ih =>
    intro m h
    by_cases hk : kv.1 = k
    · simp [assocGet, hk] at h
    · simp [assocGet, hk] at h ⊢
      exact ih h

theorem dc_field_value_eq_spec (obj : List (String × PyVal)) (f : DCField) :
    dc_field_value obj f =
      (match specFieldChoice obj f with
       | some v => .ok v
       | Option.none => .error (.missingDefault f.name)) := by
  unfold dc_field_value specFieldChoice default_value
  cases assocGet obj f.name <;> cases hd : f.default <;>
    cases hf : f.default_factory <;> cases ho : f.isOptionalTy <;> simp

theorem assocGet_filter_map_name_notin (g : DCField → PyVal) (p : DCField → Bool) :
    ∀ (fs : List DCField) (k : String), k ∉ fs.map DCField.name →
      assocGet ((fs.filter p).map (fun x => (x.name, g x))) k = Option.none := by
  intro fs
  induction fs with
  | nil => intro k _; rfl
  | cons r rs ih =>
    intro k hk
    simp only [List.map_cons, List.mem_cons] at hk
    push_neg at hk
    by_cases hp : p r
    · simp only [List.filter_cons, hp, if_pos, List.map_cons]
      simp only [assocGet]
      rw [if_neg (Ne.symm hk.1)]
      exact ih k hk.2
    · simp only [List.filter_cons, hp, Bool.false_eq_true, if_false]
      exact ih k hk.2

theorem assocGet_filter_map_name (g : DCField → PyVal) (p : DCField → Bool) :
    ∀ (fs : List DCField) (f : DCField), (fs.map DCField.name).Nodup → f ∈ fs →
      assocGet ((fs.filter p).map (fun x => (x.name, g x))) f.name =
        if p f then some (g f) else Option.none := by
  intro fs
  induction fs with
  | nil => intro f _ hf; simp at hf
  | cons f0 rest ih =>
    intro f hnd hf
    simp only [List.map_cons, List.nodup_cons] at hnd
    rcases List.mem_cons.mp hf with hf | hf
    · subst hf
      by_cases hp : p f
      · simp [List.filter_cons, hp, assocGet]
      · simp only [List.filter_cons, hp, Bool.false_eq_true, if_false, if_neg hp]
        exact assocGet_filter_map_name_notin g p rest f.name hnd.1
    · have hne : f0.name ≠ f.name := by
        intro hne
        exact hnd.1 (hne ▸ List.mem_map_of_mem DCField.name hf)
      by_cases hp0 : p f0
      · simp only [List.filter_cons, hp0, if_pos, List.map_cons]
        simp only [assocGet, if_neg hne]
        exact ih f hnd.2 hf
      · simp only [List.filter_cons, hp0, Bool.false_eq_true, if_false]
        exact ih f hnd.2 hf

/-- Claim C7: during record-like (dataclass) decode each declared field's
value is chosen as the explicit tree value, else the static default, else
the default-factory result, else null when the field's type is optional —
and when none of these applies, decoding fails with the missing-default
error naming the (first such) field. -/
theorem dataclass_decode_defaulting (cls : String) (fields : List DCField)
    (obj : List (String × PyVal)) (hnd : (fields.map DCField.name).Nodup) :
    ((∀ f ∈ fields, (specFieldChoice obj f).isSome) →
      ∃ attrs, dataclass_from_dict cls fields obj = .ok (.obj cls attrs) ∧
        ∀ f ∈ fields, assocGet attrs f.name = specFieldChoice obj f) ∧
    (∀ (pre : List DCField) (f : DCField) (post : List DCField),
      fields = pre ++ f :: post →
      (∀ g ∈ pre, (specFieldChoice obj g).isSome) →
      specFieldChoice obj f = Option.none →
      dataclass_from_dict cls fields obj = .error (.missingDefault f.name)) := by
  constructor
  · intro hall
    have hmap : mapE (fun f => do
        let v ← dc_field_value obj f
        Except.ok (f, v)) fields =
        .ok (fields.map (fun f => (f, (specFieldChoice obj f).getD PyVal.none))) := by
      apply mapE_ok_of_forall
      intro f hf
      obtain ⟨v, hv⟩ := Option.isSome_iff_exists.mp (hall f hf)
      simp [dc_field_value_eq_spec, hv, Bind.bind, Except.bind]
    have hres : dataclass_from_dict cls fields obj = .ok (.obj cls
        ((fields.filter (fun f => f.init)).map
          (fun f => (f.name, (specFieldChoice obj f).getD PyVal.none)) ++
         (fields.filter (fun f => !f.init)).map
          (fun f => (f.name, (specFieldChoice obj f).getD PyVal.none)))) := by
      unfold dataclass_from_dict
      rw [hmap]
      simp [Bind.bind, Except.bind, List.filter_map, List.map_map, Function.comp_def]
    refine ⟨_, hres, ?_⟩
    intro f hf
    obtain ⟨v, hv⟩ := Option.isSome_iff_exists.mp (hall f hf)
    have hinit := assocGet_filter_map_name
      (fun x => (specFieldChoice obj x).getD PyVal.none) (fun x => x.init)
      fields f hnd hf
    have hpost := assocGet_filter_map_name
      (fun x => (specFieldChoice obj x).getD PyVal.none) (fun x => !x.init)
      fields f hnd hf
    by_cases hi : f.init
    · rw [assocGet_append_isSome]
      · rw [hinit]; simp [hi, hv]
      · rw [hinit]; simp [hi]
    · rw [assocGet_append_isNone]
      · rw [hpost]; simp [hi, hv]
      · rw [hinit]; simp [hi]
  · intro pre f post hsplit hpre hf
    have herr : mapE (fun f => do
        let v ← dc_field_value obj f
        Except.ok (f, v)) fields = .error (.missingDefault f.name) := by
      rw [hsplit]
      apply mapE_error_at
      · intro g hg
        obtain ⟨v, hv⟩ := Option.isSome_iff_exists.mp (hpre g hg)
        exact ⟨(g, v), by simp [dc_field_value_eq_spec, hv, Bind.bind, Except.bind]⟩
      · simp [dc_field_value_eq_spec, hf, Bind.bind, Except.bind]
    unfold dataclass_from_dict
    rw [herr]
    rfl

/-- Witness for C7: a field present in the tree, a field using its static
default, a field using its factory, an optional field defaulting to null,
and a run failing on a defaultless absent field. -/
theorem dataclass_decode_defaulting_witness :
    (∃ attrs,
      dataclass_from_dict "D"
        [⟨"a", Option.none, Option.none, false, true⟩,
         ⟨"b", some (.int 7), Option.none, false, true⟩,
         ⟨"c", Option.none, some (.int 8), false, false⟩,
         ⟨"d", Option.none, Option.none, true, true⟩]
        [("a", .int 1)] = .ok (.obj "D" attrs) ∧
      ∀ f ∈ [(⟨"a", Option.none, Option.none, false, true⟩ : DCField),
             ⟨"b", some (.int 7), Option.none, false, true⟩,
             ⟨"c", Option.none, some (.int 8), false, false⟩,
             ⟨"d", Option.none, Option.none, true, true⟩],
        assocGet attrs f.name = specFieldChoice [("a", .int 1)] f) ∧
    dataclass_from_dict "D"
      [⟨"a", Option.none, Option.none, false, true⟩,
       ⟨"e", Option.none, Option.none, false, true⟩]
      [("a", .int 1)] = .error (.missingDefault "e") := by
  constructor
  · exact (dataclass_decode_defaulting "D" _ [("a", .int 1)] (by decide)).1
      (by intro f hf; fin_cases hf <;> decide)
  · exact (dataclass_decode_defaulting "D" _ [("a", .int 1)] (by decide)).2
      [⟨"a", Option.none, Option.none, false, true⟩] _ [] rfl
      (by intro g hg; fin_cases hg; decide) (by rfl)

/-- Claim C8: an enumeration member encodes to a mapping holding its value
and its name; decode reconstructs the member from the tree's value alone
and then checks the reconstructed name against the tree's name — a
mismatch raises the inconsistent-enum error, never a silent correction;
and when no member has the tree's value the decode fails with the
constructor's error no matter what the tree's name says (reconstruction is
never name-based). -/
theorem enum_value_wins_name_checked (E : EnumDef) :
    (∀ m : EnumMember, enum_to_dict m = .dict [("value", m.value), ("name", .str m.name)]) ∧
    (∀ m : EnumMember, enum_ctor E m.value = .ok m →
      enum_from_dict E (enum_to_dict m) = .ok m) ∧
    (∀ (v : PyVal) (n : String) (m : EnumMember),
      enum_ctor E v = .ok m → m.name ≠ n →
      enum_from_dict E (.dict [("value", v), ("name", .str n)]) = .error .inconsistentEnum) ∧
    (∀ (v : PyVal) (n : String) (e : Err),
      enum_ctor E v = .error e →
      enum_from_dict E (.dict [("value", v), ("name", .str n)]) = .error e) := by
  refine ⟨fun m => rfl, ?_, ?_, ?_⟩
  · intro m hm
    simp [enum_from_dict, enum_to_dict, keyGet, assocGet, hm, Bind.bind, Except.bind, pvBeq]
  · intro v n m hm hne
    simp [enum_from_dict, keyGet, assocGet, hm, Bind.bind, Except.bind, pvBeq,
      beq_eq_false_iff_ne.mpr hne]
  · intro v n e he
    simp [enum_from_dict, keyGet, assocGet, he, Bind.bind, Except.bind]

/-- Witness for C8 on the spec's `Color` enumeration: `Red = 2` encodes
to its value-name mapping and decodes back, while the tampered tree with
`Black`'s value and `Red`'s name raises the inconsistent-enum error, and a
tree with an unknown value fails with the constructor's `ValueError` even
though its name is a valid member name. -/
theorem enum_value_wins_name_checked_witness :
    enum_from_dict [⟨"Black", .int 1⟩, ⟨"Red", .int 2⟩]
      (enum_to_dict ⟨"Red", .int 2⟩) = .ok ⟨"Red", .int 2⟩ ∧
    enum_from_dict [⟨"Black", .int 1⟩, ⟨"Red", .int 2⟩]
      (.dict [("value", .int 1), ("name", .str "Red")]) = .error .inconsistentEnum ∧
    enum_from_dict [⟨"Black", .int 1⟩, ⟨"Red", .int 2⟩]
      (.dict [("value", .int 3), ("name", .str "Red")]) = .error .valueError := by
  refine ⟨?_, ?_, ?_⟩
  · exact (enum_value_wins_name_checked _).2.1 ⟨"Red", .int 2⟩ (by rfl)
  · exact (enum_value_wins_name_checked _).2.2.1 (.int 1) "Red" ⟨"Black", .int 1⟩
      (by rfl) (by decide)
  · exact (enum_value_wins_name_checked _).2.2.2 (.int 3) "Red" .valueError (by rfl)

theorem assocGet_assocSet {α : Type} (k : String) (v : α) :
    ∀ l : List (String × α), assocGet (assocSet l k v) k = some v := by
  intro l
  induction l with
  | nil => simp [assocSet, assocGet]
  | cons kv rest ih =>
    by_cases hk : kv.1 = k
    · simp [assocSet, assocGet, hk]
    · simp [assocSet, assocGet, hk, ih]

theorem assocSet_assocSet {α : Type} (k : String) (v w : α) :
    ∀ l : List (String × α), assocSet (assocSet l k v) k w = assocSet l k w := by
  intro l
  induction l with
  | nil => simp [assocSet]
  | cons kv rest ih =>
    by_cases hk : kv.1 = k
    · simp [assocSet, hk]
    · simp [assocSet, hk, ih]

/-- Claim C9: marking a plain class encode-only and, in a separate call,
decode-only — in either order — yields the same registry entry as one full
`dictable` registration with the default strategies; each partial call
preserves an already registered other direction and otherwise fills it
with the always-failing strategy naming the type
(`unable_to_dict` / `unable_from_dict`). -/
theorem partial_registration_merge (R : RegModel.Reg) (c : RegModel.PyCls)
    (hk : c.kind = .plainK) (hnew : assocGet R c.pyName = Option.none) :
    RegModel.from_dictable (RegModel.to_dictable R c Option.none Option.none)
        c Option.none Option.none =
      RegModel.dictable R c Option.none Option.none Option.none ∧
    RegModel.to_dictable (RegModel.from_dictable R c Option.none Option.none)
        c Option.none Option.none =
      RegModel.dictable R c Option.none Option.none Option.none ∧
    assocGet (RegModel.to_dictable R c Option.none Option.none) c.pyName =
      some ⟨c.pyName, some .default_to_dict, some .unable_from_dict⟩ ∧
    assocGet (RegModel.from_dictable R c Option.none Option.none) c.pyName =
      some ⟨c.pyName, some .unable_to_dict, some .default_from_dict⟩ ∧
    assocGet (RegModel.dictable R c Option.none Option.none Option.none) c.pyName =
      some ⟨c.pyName, some .default_to_dict, some .default_from_dict⟩ ∧
    (∀ (R2 : RegModel.Reg) (m : RegModel.RMeta) (fr0 : RegModel.FromFn),
      assocGet R2 c.pyName = some m → m.from_dict = some fr0 →
      assocGet (RegModel.to_dictable R2 c Option.none Option.none) c.pyName =
        some ⟨c.pyName, some .default_to_dict, some fr0⟩) ∧
    (∀ (R2 : RegModel.Reg) (m : RegModel.RMeta) (to0 : RegModel.ToFn),
      assocGet R2 c.pyName = some m → m.to_dict = some to0 →
      assocGet (RegModel.from_dictable R2 c Option.none Option.none) c.pyName =
        some ⟨c.pyName, some to0, some .default_from_dict⟩) := by
  refine ⟨?_, ?_, ?_, ?_, ?_, ?_, ?_⟩
  · simp [RegModel.to_dictable, RegModel.from_dictable, RegModel.dictable, hk, hnew,
      assocGet_assocSet, assocSet_assocSet]
  · simp [RegModel.to_dictable, RegModel.from_dictable, RegModel.dictable, hk, hnew,
      assocGet_assocSet, assocSet_assocSet]
  · simp [RegModel.to_dictable, RegModel.dictable, hk, hnew, assocGet_assocSet]
  · simp [RegModel.from_dictable, RegModel.dictable, hk, hnew, assocGet_assocSet]
  · simp [RegModel.dictable, hk, assocGet_assocSet]
  · intro R2 m fr0 hm hfr
    simp [RegModel.to_dictable, RegModel.dictable, hk, hm, hfr, assocGet_assocSet]
  · intro R2 m to0 hm hto
    simp [RegModel.from_dictable, RegModel.dictable, hk, hm, hto, assocGet_assocSet]

/-- Witness for C9: on an empty registry, encode-only then decode-only
marking of the plain class `P` — in either order — equals the single full
registration, and the intermediate states fill the missing direction with
the always-failing strategy. -/
theorem partial_registration_merge_witness :
    RegModel.from_dictable (RegModel.to_dictable [] ⟨"P", .plainK⟩ Option.none Option.none)
        ⟨"P", .plainK⟩ Option.none Option.none =
      RegModel.dictable [] ⟨"P", .plainK⟩ Option.none Option.none Option.none ∧
    RegModel.to_dictable (RegModel.from_dictable [] ⟨"P", .plainK⟩ Option.none Option.none)
        ⟨"P", .plainK⟩ Option.none Option.none =
      RegModel.dictable [] ⟨"P", .plainK⟩ Option.none Option.none Option.none ∧
    assocGet (RegModel.dictable [] ⟨"P", .plainK⟩ Option.none Option.none Option.none) "P" =
      some ⟨"P", some .default_to_dict, some .default_from_dict⟩ := by
  have h := partial_registration_merge [] ⟨"P", .plainK⟩ (by rfl) (by rfl)
  exact ⟨h.1, h.2.1, h.2.2.2.2.1⟩

theorem assocGet_eq_none_of_notin {α : Type} (k : String) :
    ∀ l : List (String × α), k ∉ l.map Prod.fst → assocGet l k = Option.none := by
  intro l
  induction l with
  | nil => intro _; rfl
  | cons kv rest ih =>
    intro h
    simp only [List.map_cons, List.mem_cons] at h
    push_neg at h
    simp only [assocGet]
    rw [if_neg (Ne.symm h.1)]
    exact ih h.2

theorem assocGet_assocErase_self {α : Type} (k : String) :
    ∀ l : List (String × α), (l.map Prod.fst).Nodup →
      assocGet (assocErase l k) k = Option.none := by
  intro l
  induction l with
  | nil => intro _; rfl
  | cons kv rest ih =>
    intro hnd
    simp only [List.map_cons, List.nodup_cons] at hnd
    by_cases hk : kv.1 = k
    · simp only [assocErase, if_pos hk]
      exact assocGet_eq_none_of_notin k rest (hk ▸ hnd.1)
    · simp only [assocErase, if_neg hk, assocGet]
      exact ih hnd.2

theorem assocGet_assocErase_ne {α : Type} (k k2 : String) (hne : k2 ≠ k) :
    ∀ l : List (String × α), assocGet (assocErase l k) k2 = assocGet l k2 := by
  intro l
  induction l with
  | nil => rfl
  | cons kv rest ih =>
    by_cases hk : kv.1 = k
    · simp only [assocErase, if_pos hk, assocGet]
      rw [if_neg (by rw [hk]; exact fun h => hne h.symm)]
    · simp only [assocErase, if_neg hk, assocGet]
      by_cases h2 : kv.1 = k2
      · rw [if_pos h2, if_pos h2]
      · rw [if_neg h2, if_neg h2]
        exact ih

/-- Claim C10 (implicit frame effect): `from_dict` mutates its input tree
in place — when the input mapping holds the reserved key `"@"` naming a
registered type, the `"@"` entry is deleted from the caller's own mapping
(`strip_class` runs on the argument itself; all later phases build fresh
values), every other entry is untouched, and a second `from_dict` on the
same mapping sees an untagged mapping: its strip step resolves nothing and
leaves the mapping as it is. -/
theorem from_dict_strips_tag_in_place (W : World) (kvs : List (String × PyVal))
    (s c : String) (cand : Option TypeRef) (opts : Options)
    (htag : assocGet kvs "@" = some (.str s)) (hq : queryName W s = some c)
    (hnd : (kvs.map Prod.fst).Nodup) :
    fromDictCallerView W (.dict kvs) cand opts = .dict (assocErase kvs "@") ∧
    assocGet (assocErase kvs "@") "@" = Option.none ∧
    (∀ k, k ≠ "@" → assocGet (assocErase kvs "@") k = assocGet kvs k) ∧
    (∀ (cand2 : Option TypeRef) (opts2 : Options),
      strip_class W (.dict (assocErase kvs "@")) cand2 opts2 =
        .ok (cand2, .dict (assocErase kvs "@"))) ∧
    (∀ (cand2 : Option TypeRef) (opts2 : Options),
      fromDictCallerView W (.dict (assocErase kvs "@")) cand2 opts2 =
        .dict (assocErase kvs "@")) := by
  have herased : assocGet (assocErase kvs "@") "@" = Option.none :=
    assocGet_assocErase_self "@" kvs hnd
  refine ⟨?_, herased, ?_, ?_, ?_⟩
  · simp [fromDictCallerView, strip_class, htag, hq]
  · intro k hk
    exact assocGet_assocErase_ne "@" k hk kvs
  · intro cand2 opts2
    simp [strip_class, herased]
  · intro cand2 opts2
    simp [fromDictCallerView, strip_class, herased]

/-- Witness for C10: stripping the tagged `Point`-free mapping
`[("x", 1), ("@", "A")]` in the world registering `A`. -/
theorem from_dict_strips_tag_in_place_witness :
    fromDictCallerView unionWorld (.dict [("x", .int 1), ("@", .str "A")])
        Option.none {} = .dict [("x", .int 1)] ∧
    strip_class unionWorld (.dict [("x", .int 1)]) Option.none {} =
      .ok (Option.none, .dict [("x", .int 1)]) := by
  have h := from_dict_strips_tag_in_place unionWorld
    [("x", .int 1), ("@", .str "A")] "A" "A" Option.none {} (by rfl) (by rfl) (by decide)
  exact ⟨h.1, h.2.2.2.1 Option.none {}⟩

/-- Counterexample to claim C2: in `strip_class` a resolved tag replaces
the supplied candidate even when that candidate is a union — there is no
union special case — so an embedded tag short-circuits union
disambiguation: the tagged mapping decodes as `A` while the same mapping
without the tag makes the union branch run (and here report ambiguity). -/
theorem tag_overrides_union_counterexample :
    strip_class unionWorld (.dict [("@", .str "A"), ("x", .int 1)])
        (some (.union [.builtinT .dictTy, .cls "A"])) {} =
      .ok (some (.cls "A"), .dict [("x", .int 1)]) ∧
    (some (TypeRef.cls "A") ≠ some (.union [.builtinT .dictTy, .cls "A"])) ∧
    fromDictF 5 unionWorld (.dict [("@", .str "A"), ("x", .int 1)])
        (some (.union [.builtinT .dictTy, .cls "A"])) {} =
      .ok (.obj "A" [("x", .int 1)]) ∧
    fromDictF 5 unionWorld (.dict [("x", .int 1)])
        (some (.union [.builtinT .dictTy, .cls "A"])) {} =
      .error (.multiMatch [.builtinT .dictTy, .cls "A"]) := by
  refine ⟨rfl, ?_, rfl, rfl⟩
  intro h
  exact TypeRef.noConfusion (Option.some.inj h)

/-- Claim C2, amended: for a `from_dict` tree carrying the reserved tag,
a tag that resolves to a registered type replaces the supplied candidate
type unconditionally — including when the candidate is a union type, whose
disambiguation is thereby skipped; only an unresolved tag leaves the
candidate in force. -/
theorem tag_precedence_amended (W : World) (kvs : List (String × PyVal))
    (s c : String) (cand : Option TypeRef) (opts : Options)
    (htag : assocGet kvs "@" = some (.str s)) (hq : queryName W s = some c) :
    strip_class W (.dict kvs) cand opts =
      .ok (some (.cls c), .dict (assocErase kvs "@")) := by
  simp [strip_class, htag, hq]

/-- Witness for C2 (amended): the resolved tag `A` replaces a union
candidate. -/
theorem tag_precedence_amended_witness :
    strip_class unionWorld (.dict [("@", .str "A"), ("x", .int 1)])
        (some (.union [.builtinT .strTy, .cls "A"])) {} =
      .ok (some (.cls "A"), .dict [("x", .int 1)]) := by
  exact tag_precedence_amended unionWorld [("@", .str "A"), ("x", .int 1)]
    "A" "A" (some (.union [.builtinT .strTy, .cls "A"])) {} (by rfl) (by rfl)

/-- Claim C3: for a recursive `from_dict` whose candidate is a union, the
members surviving the builtin-instance pre-filter are each tried by full
recursive conversion (the candidate loop `unionLoop`, which also carries
the source's reassignment of the working value on success); when exactly
one member's conversion was recorded the result for that member is
returned, and when more than one was recorded the ambiguity error
identifying all matches is raised instead of picking one. -/
theorem union_decode_cardinality (fuel : Nat) (W : World) (ts : List TypeRef)
    (obj fin : PyVal) (ms : List (TypeRef × PyVal)) (opts : Options)
    (hrec : opts.recursively = true)
    (hstrip : strip_class W obj (some (.union ts)) opts = .ok (some (.union ts), obj))
    (hloop : unionLoop (fun o c => fromDictF fuel W o c opts) ts obj [] = .ok (fin, ms)) :
    (∀ t v, ms = [(t, v)] →
      fromDictF (fuel + 1) W obj (some (.union ts)) opts = .ok v) ∧
    (1 < ms.length →
      fromDictF (fuel + 1) W obj (some (.union ts)) opts =
        .error (.multiMatch (ms.map Prod.fst))) := by
  constructor
  · intro t v hms
    subst hms
    simp [fromDictF, hstrip, fromBody, hrec, itemsFromDict, unionBranch, hloop,
      dispatch, Bind.bind, Except.bind]
  · intro hlen
    simp [fromDictF, hstrip, fromBody, hrec, itemsFromDict, unionBranch, hloop,
      dispatch, Bind.bind, Except.bind, hlen]

/-- Witness for C3: over the world registering the plain class `A`,
decoding `[("x", 1)]` against `Union[str, A]` records exactly the single
match `A` and returns it, while `Union[dict, A]` records two matches and
raises the ambiguity error listing both. -/
theorem union_decode_cardinality_witness :
    fromDictF 10 unionWorld (.dict [("x", .int 1)])
        (some (.union [.builtinT .strTy, .cls "A"])) {} =
      .ok (.obj "A" [("x", .int 1)]) ∧
    fromDictF 10 unionWorld (.dict [("x", .int 1)])
        (some (.union [.builtinT .dictTy, .cls "A"])) {} =
      .error (.multiMatch [.builtinT .dictTy, .cls "A"]) := by
  constructor
  · exact (union_decode_cardinality 9 unionWorld [.builtinT .strTy, .cls "A"]
      (.dict [("x", .int 1)]) (.obj "A" [("x", .int 1)])
      [(.cls "A", .obj "A" [("x", .int 1)])] {} rfl rfl rfl).1
      (.cls "A") (.obj "A" [("x", .int 1)]) rfl
  · exact (union_decode_cardinality 9 unionWorld [.builtinT .dictTy, .cls "A"]
      (.dict [("x", .int 1)]) (.obj "A" [("x", .int 1)])
      [(.builtinT .dictTy, .dict [("x", .int 1)]), (.cls "A", .obj "A" [("x", .int 1)])]
      {} rfl rfl rfl).2 (by decide)

/-- Counterexample to claim C4: when no union member's conversion
succeeds, the `from_dict` call does not propagate the last attempted
candidate's failure — here the last (and only) candidate `A` fails with
`AttributeError` — but instead raises the `KeyError` of popping the empty
`cand_objects` dict. -/
theorem union_no_match_counterexample :
    fromDictF 10 unionWorld (.int 5) (some (.union [.cls "A"])) {} =
      .error .popitemEmpty ∧
    fromDictF 9 unionWorld (.int 5) (some (.cls "A")) {} = .error .attrError ∧
    Err.popitemEmpty ≠ Err.attrError := by
  exact ⟨rfl, rfl, fun h => Err.noConfusion h⟩

/-- Claim C4, amended: when no union member's conversion succeeds (the
candidate loop records no match), the `from_dict` call fails — but with
the `KeyError` raised by `popitem` on the empty match dict, not with the
failure of the last attempted candidate, which the loop swallowed. -/
theorem union_no_match_amended (fuel : Nat) (W : World) (ts : List TypeRef)
    (obj fin : PyVal) (opts : Options)
    (hrec : opts.recursively = true)
    (hstrip : strip_class W obj (some (.union ts)) opts = .ok (some (.union ts), obj))
    (hloop : unionLoop (fun o c => fromDictF fuel W o c opts) ts obj [] = .ok (fin, [])) :
    fromDictF (fuel + 1) W obj (some (.union ts)) opts = .error .popitemEmpty := by
  simp [fromDictF, hstrip, fromBody, hrec, itemsFromDict, unionBranch, hloop,
    dispatch, Bind.bind, Except.bind]

/-- Witness for C4 (amended): the integer `5` fails conversion against
every member of `Union[A]`, and the call reports the empty-pop error. -/
theorem union_no_match_amended_witness :
    fromDictF 10 unionWorld (.int 5) (some (.union [.cls "A"])) {} =
      .error .popitemEmpty := by
  exact union_no_match_amended 9 unionWorld [.cls "A"] (.int 5) (.int 5) {} rfl rfl rfl

theorem assocGet_assocSet_ne {α : Type} (k k2 : String) (hne : k2 ≠ k) :
    ∀ (l : List (String × α)) (v : α), assocGet (assocSet l k v) k2 = assocGet l k2 := by
  intro l
  induction l with
  | nil =>
    intro v
    simp only [assocSet, assocGet]
    rw [if_neg (fun h => hne h.symm)]
  | cons kv rest ih =>
    intro v
    by_cases hk : kv.1 = k
    · simp only [assocSet, if_pos hk, assocGet]
      rw [if_neg (by rw [hk]; exact fun h => hne h.symm),
        if_neg (by rw [hk]; exact fun h => hne h.symm)]
    · simp only [assocSet, if_neg hk, assocGet]
      by_cases h2 : kv.1 = k2
      · rw [if_pos h2, if_pos h2]
      · rw [if_neg h2, if_neg h2]
        exact ih v

/-- Counterexample to claim C5: a tag that does not resolve (here the
unregistered name `Unreg`) is not removed by `strip_class` when a
candidate type is supplied, so the mapping handed to the decode strategy
still contains the reserved key `"@"` — the default strategy then applies
it onto the constructed instance as an attribute. -/
theorem unresolved_tag_reaches_strategy_counterexample :
    strip_class tagWorld (.dict [("p", .int 1), ("@", .str "Unreg")])
        (some (.cls "A")) {} =
      .ok (some (.cls "A"), .dict [("p", .int 1), ("@", .str "Unreg")]) ∧
    fromDictF 10 tagWorld (.dict [("p", .int 1), ("@", .str "Unreg")])
        (some (.cls "A")) {} =
      .ok (.obj "A" [("p", .int 1), ("@", .str "Unreg")]) ∧
    assocGet [("p", PyVal.int 1), ("@", PyVal.str "Unreg")] "@" =
      some (.str "Unreg") := by
  exact ⟨rfl, rfl, rfl⟩

/-- Claim C5, amended: the reserved key `"@"` is removed from the input
mapping before any decode strategy runs exactly when its tag resolves to a
registered type — `from_dict` then proceeds on the tag-stripped mapping
with the resolved class, `"@"` is absent from that mapping and every other
entry is preserved; an unresolved tag is left in the mapping that the
strategies receive.  Dually, `"@"` is the only key `embed_class` injects,
leaving every other entry unchanged. -/
theorem tag_stripping_amended (W : World) (kvs : List (String × PyVal))
    (s c : String) (cand : Option TypeRef) (opts : Options) (fuel : Nat)
    (htag : assocGet kvs "@" = some (.str s)) (hq : queryName W s = some c)
    (hnd : (kvs.map Prod.fst).Nodup) :
    fromDictF (fuel + 1) W (.dict kvs) cand opts =
      fromBody (fun o c2 => fromDictF fuel W o c2 opts) W
        (.dict (assocErase kvs "@")) (some (.cls c)) opts ∧
    assocGet (assocErase kvs "@") "@" = Option.none ∧
    (∀ k, k ≠ "@" → assocGet (assocErase kvs "@") k = assocGet kvs k) ∧
    (∀ (kvs2 : List (String × PyVal)) (c2 : String) (a2 : List (String × PyVal))
        (m : Meta), assocGet W.reg c2 = some m → opts.with_cls = true →
      embed_class W (.obj c2 a2) (.dict kvs2) opts =
        .ok (.dict (assocSet kvs2 "@" (.str m.regName))) ∧
      ∀ k, k ≠ "@" →
        assocGet (assocSet kvs2 "@" (.str m.regName)) k = assocGet kvs2 k) := by
  refine ⟨?_, assocGet_assocErase_self "@" kvs hnd, ?_, ?_⟩
  · simp [fromDictF, strip_class, htag, hq, Bind.bind, Except.bind]
  · intro k hk
    exact assocGet_assocErase_ne "@" k hk kvs
  · intro kvs2 c2 a2 m hm hwc
    refine ⟨?_, ?_⟩
    · simp [embed_class, hwc, hm]
    · intro k hk
      exact assocGet_assocSet_ne "@" k hk kvs2 (.str m.regName)

/-- Witness for C5 (amended): the resolving tag `A` is stripped before
the decode strategy runs and the entry `p` survives; embedding writes
exactly the `"@"` entry. -/
theorem tag_stripping_amended_witness :
    fromDictF 4 tagWorld (.dict [("p", .int 1), ("@", .str "A")]) Option.none {} =
      fromBody (fun o c2 => fromDictF 3 tagWorld o c2 {}) tagWorld
        (.dict (assocErase [("p", .int 1), ("@", .str "A")] "@")) (some (.cls "A")) {} ∧
    assocGet (assocErase [("p", PyVal.int 1), ("@", PyVal.str "A")] "@") "@" =
      Option.none ∧
    embed_class tagWorld (.obj "A" [("p", .int 1)]) (.dict [("p", .int 1)]) {} =
      .ok (.dict (assocSet [("p", .int 1)] "@" (.str "A"))) := by
  have h := tag_stripping_amended tagWorld [("p", .int 1), ("@", .str "A")]
    "A" "A" Option.none {} 3 (by rfl) (by rfl) (by decide)
  exact ⟨h.1, h.2.1, (h.2.2.2 [("p", .int 1)] "A" [("p", .int 1)]
    ⟨"A", .defaultTo, .defaultFrom⟩ (by rfl) (by rfl)).1⟩

theorem mapE_mono {α β : Type} (f g : α → Except Err β) :
    ∀ l : List α, (∀ a ∈ l, ∀ b, f a = .ok b → g a = .ok b) →
      ∀ r, mapE f l = .ok r → mapE g l = .ok r := by
  intro l
  induction l with
  | nil => intro _ r h; exact h
  | cons a as ih =>
    intro hone r h
    simp only [mapE, Bind.bind, Except.bind] at h ⊢
    cases hfa : f a with
    | error e => rw [hfa] at h; exact absurd h (by simp)
    | ok b =>
      rw [hfa] at h
      cases hfs : mapE f as with
      | error e => rw [hfs] at h; exact absurd h (by simp)
      | ok bs =>
        rw [hfs] at h
        rw [hone a (by simp) b hfa, ih (fun x hx => hone x (by simp [hx])) bs hfs]
        exact h

theorem stableMapE_mono (f g : PyVal → Option String → Except Err PyVal)
    (hfg : ∀ v k b, f v k = .ok b → g v k = .ok b) :
    ∀ obj r : PyVal, stableMapE obj f = .ok r → stableMapE obj g = .ok r := by
  intro obj r h
  cases obj with
  | dict kvs =>
    simp only [stableMapE] at h ⊢
    cases hm : mapE (fun kv => do
        let v ← f kv.2 (some kv.1)
        Except.ok (kv.1, v)) kvs with
    | error e => rw [hm] at h; exact absurd h (by simp [Except.map])
    | ok kvs2 =>
      rw [hm] at h
      rw [mapE_mono _ (fun kv => do
          let v ← g kv.2 (some kv.1)
          Except.ok (kv.1, v)) kvs ?_ kvs2 hm]
      · exact h
      · intro kv _ b hb
        simp only [Bind.bind, Except.bind] at hb ⊢
        cases hv : f kv.2 (some kv.1) with
        | error e => rw [hv] at hb; exact absurd hb (by simp)
        | ok v => rw [hv] at hb; rw [hfg kv.2 (some kv.1) v hv]; exact hb
  | list xs =>
    simp only [stableMapE] at h ⊢
    cases hm : mapE (fun x => f x Option.none) xs with
    | error e => rw [hm] at h; exact absurd h (by simp [Except.map])
    | ok xs2 =>
      rw [hm] at h
      rw [mapE_mono _ (fun x => g x Option.none) xs
          (fun x _ b hb => hfg x Option.none b hb) xs2 hm]
      exact h
  | none => exact h
  | bool b => exact h
  | int n => exact h
  | str s2 => exact h
  | obj c attrs => exact h
  | paramEmpty => exact h

theorem encode_step_strict_mono (W : World) (R C : Bool) (ins v : PyVal)
    (h : encode_step W ins ⟨R, true, C⟩ = .ok v) :
    encode_step W ins ⟨R, false, C⟩ = .ok v := by
  cases ins with
  | obj c attrs =>
    simp only [encode_step] at h ⊢
    cases hreg : assocGet W.reg c with
    | none => rw [hreg] at h; exact absurd h (by simp)
    | some m => rw [hreg] at h; exact h
  | paramEmpty => exact absurd h (by simp [encode_step])
  | none => exact h
  | bool b => exact h
  | int n => exact h
  | str s2 => exact h
  | list xs => exact h
  | dict kvs => exact h

theorem toDict_strict_mono (W : World) (R C : Bool) :
    ∀ (fuel : Nat) (ins r : PyVal), toDictF fuel W ins ⟨R, true, C⟩ = .ok r →
      toDictF fuel W ins ⟨R, false, C⟩ = .ok r := by
  intro fuel
  induction fuel with
  | zero => intro ins r h; exact absurd h (by simp [toDictF])
  | succ fuel ih =>
    intro ins r h
    rw [toDictF] at h ⊢
    simp only [Bind.bind, Except.bind] at h ⊢
    cases h0 : encode_step W ins ⟨R, true, C⟩ with
    | error e => rw [h0] at h; exact absurd h (by simp)
    | ok obj0 =>
      rw [h0] at h
      rw [encode_step_strict_mono W R C ins obj0 h0]
      cases R with
      | false => exact h
      | true =>
        simp only [if_pos rfl] at h ⊢
        cases h1 : stableMapE obj0 (fun v _ => toDictF fuel W v ⟨true, true, C⟩) with
        | error e => rw [h1] at h; exact absurd h (by simp)
        | ok obj1 =>
          rw [h1] at h
          rw [stableMapE_mono _ (fun v _ => toDictF fuel W v ⟨true, false, C⟩)
              (fun v _ b hb => ih v b hb) obj0 obj1 h1]
          exact h


/-- Counterexample to claim C6: `to_dict` on a registered instance with an
unregistered attribute value fails under `strict=True` with `UnableToDict`
raised for the nested class, yet `strict=False` does not return the input
unchanged — it succeeds with the converted, tagged mapping that still
embeds the unconverted nested instance. -/
theorem strictness_monotonicity_counterexample :
    toDictF 5 strictWorld (.obj "N" [("a", .obj "U" [])]) {} =
      .error (.unableToDict "U") ∧
    toDictF 5 strictWorld (.obj "N" [("a", .obj "U" [])]) { strict := false } =
      .ok (.dict [("a", .obj "U" []), ("@", .str "N")]) ∧
    PyVal.dict [("a", .obj "U" []), ("@", .str "N")] ≠
      .obj "N" [("a", .obj "U" [])] := by
  exact ⟨rfl, rfl, fun h => PyVal.noConfusion h⟩

/-- Claim C6, amended: if `to_dict(x, strict=True)` succeeds then
`to_dict(x, strict=False)` succeeds with the same result; and if
`strict=True` fails with `UnableToDict` for `x`'s own class at the top
level (`x`'s class has no conversion path), then `strict=False` succeeds
and returns `x` unchanged.  (A `strict=True` failure arising from a nested
item does not return `x` unchanged under `strict=False`: the top level is
still converted, as the counterexample shows.) -/
theorem strictness_monotonicity_amended (W : World) (opts : Options)
    (hs : opts.strict = true) :
    (∀ (fuel : Nat) (ins r : PyVal), toDictF fuel W ins opts = .ok r →
      toDictF fuel W ins { opts with strict := false } = .ok r) ∧
    (∀ (fuel : Nat) (c : String) (attrs : List (String × PyVal)),
      assocGet W.reg c = Option.none →
      toDictF (fuel + 1) W (.obj c attrs) opts = .error (.unableToDict c) ∧
      toDictF (fuel + 1) W (.obj c attrs) { opts with strict := false } =
        .ok (.obj c attrs)) := by
  obtain ⟨R, S, C⟩ := opts
  simp only [] at hs
  subst hs
  constructor
  · intro fuel ins r h
    exact toDict_strict_mono W R C fuel ins r h
  · intro fuel c attrs hreg
    constructor
    · simp [toDictF, encode_step, hreg, Bind.bind, Except.bind]
    · simp [toDictF, encode_step, hreg, stableMapE, embed_class, Bind.bind, Except.bind]

/-- Witness for C6 (amended): a successful strict conversion of a `Point`
is reproduced under non-strict mode, and the unregistered bare instance
`U` errors under strict mode while passing through unchanged under
non-strict mode. -/
theorem strictness_monotonicity_amended_witness :
    toDictF 5 lineWorld (pointVal 1 2) { strict := false } =
      .ok (.dict [("x", .int 1), ("y", .int 2), ("@", .str "Point")]) ∧
    toDictF 5 strictWorld (.obj "U" []) {} = .error (.unableToDict "U") ∧
    toDictF 5 strictWorld (.obj "U" []) { strict := false } = .ok (.obj "U" []) := by
  have h1 := (strictness_monotonicity_amended lineWorld {} rfl).1 5 (pointVal 1 2)
    (.dict [("x", .int 1), ("y", .int 2), ("@", .str "Point")]) rfl
  have h2 := (strictness_monotonicity_amended strictWorld {} rfl).2 4 "U" [] rfl
  exact ⟨h1, h2.1, h2.2⟩

theorem pyDepth_pos : ∀ v : PyVal, 1 ≤ pyDepth v := by
  intro v
  cases v <;> simp [pyDepth]

theorem pyDepthL_mem {x : PyVal} : ∀ {xs : List PyVal}, x ∈ xs → pyDepth x ≤ pyDepthL xs := by
  intro xs
  induction xs with
  | nil => intro h; simp at h
  | cons y ys ih =>
    intro h
    rcases List.mem_cons.mp h with h | h
    · subst h; simp [pyDepthL]
    · simp only [pyDepthL]
      exact le_trans (ih h) (le_max_right _ _)

theorem pyDepthKV_mem {k : String} {v : PyVal} :
    ∀ {kvs : List (String × PyVal)}, (k, v) ∈ kvs → pyDepth v ≤ pyDepthKV kvs := by
  intro kvs
  induction kvs with
  | nil => intro h; simp at h
  | cons kv rest ih =>
    intro h
    obtain ⟨k2, v2⟩ := kv
    rcases List.mem_cons.mp h with heq | hmem
    · injection heq with h1 h2; subst h2; simp [pyDepthKV]
    · simp only [pyDepthKV]
      exact le_trans (ih hmem) (le_max_right _ _)

theorem WFl_mem (W : World) (wc : Bool) {x : PyVal} :
    ∀ {xs : List PyVal}, WFl W wc xs = true → x ∈ xs → WFv W wc x = true := by
  intro xs
  induction xs with
  | nil => intro _ h; simp at h
  | cons y ys ih =>
    intro hwf h
    simp only [WFl, Bool.and_eq_true] at hwf
    rcases List.mem_cons.mp h with h | h
    · subst h; exact hwf.1
    · exact ih hwf.2 h

theorem WFkv_mem (W : World) (wc : Bool) {k : String} {v : PyVal} :
    ∀ {kvs : List (String × PyVal)}, WFkv W wc kvs = true → (k, v) ∈ kvs →
      WFv W wc v = true := by
  intro kvs
  induction kvs with
  | nil => intro _ h; simp at h
  | cons kv rest ih =>
    intro hwf h
    obtain ⟨k2, v2⟩ := kv
    simp only [WFkv, Bool.and_eq_true] at hwf
    rcases List.mem_cons.mp h with h | h
    · injection h with h1 h2; subst h2; exact hwf.1
    · exact ih hwf.2 h

theorem WFfields_mem (W : World) (wc : Bool) (ann : List (String × TypeRef))
    {k : String} {v : PyVal} :
    ∀ {kvs : List (String × PyVal)}, WFfields W wc ann kvs = true → (k, v) ∈ kvs →
      WFv W wc v = true ∧ annOK wc (assocGet ann k) v = true := by
  intro kvs
  induction kvs with
  | nil => intro _ h; simp at h
  | cons kv rest ih =>
    intro hwf h
    obtain ⟨k2, v2⟩ := kv
    simp only [WFfields, Bool.and_eq_true] at hwf
    rcases List.mem_cons.mp h with h | h
    · injection h with h1 h2; subst h1; subst h2; exact ⟨hwf.1.1, hwf.1.2⟩
    · exact ih hwf.2 h

theorem objFreeL_mem {x : PyVal} :
    ∀ {xs : List PyVal}, objFreeL xs = true → x ∈ xs → objFree x = true := by
  intro xs
  induction xs with
  | nil => intro _ h; simp at h
  | cons y ys ih =>
    intro hf h
    simp only [objFreeL, Bool.and_eq_true] at hf
    rcases List.mem_cons.mp h with h | h
    · subst h; exact hf.1
    · exact ih hf.2 h

theorem objFreeKV_mem {k : String} {v : PyVal} :
    ∀ {kvs : List (String × PyVal)}, objFreeKV kvs = true → (k, v) ∈ kvs →
      objFree v = true := by
  intro kvs
  induction kvs with
  | nil => intro _ h; simp at h
  | cons kv rest ih =>
    intro hf h
    obtain ⟨k2, v2⟩ := kv
    simp only [objFreeKV, Bool.and_eq_true] at hf
    rcases List.mem_cons.mp h with h | h
    · injection h with h1 h2; subst h2; exact hf.1
    · exact ih hf.2 h

theorem assocSet_append_fresh {α : Type} (k : String) (v : α) :
    ∀ l : List (String × α), k ∉ l.map Prod.fst → assocSet l k v = l ++ [(k, v)] := by
  intro l
  induction l with
  | nil => intro _; rfl
  | cons kv rest ih =>
    intro h
    simp only [List.map_cons, List.mem_cons] at h
    push_neg at h
    simp only [assocSet, if_neg (Ne.symm h.1), List.cons_append]
    rw [ih h.2]

theorem assocGet_append_last {α : Type} (k : String) (v : α) :
    ∀ l : List (String × α), k ∉ l.map Prod.fst →
      assocGet (l ++ [(k, v)]) k = some v := by
  intro l h
  rw [assocGet_append_isNone (assocGet_eq_none_of_notin k l h)]
  simp [assocGet]

theorem assocErase_append_last {α : Type} (k : String) (v : α) :
    ∀ l : List (String × α), k ∉ l.map Prod.fst →
      assocErase (l ++ [(k, v)]) k = l := by
  intro l
  induction l with
  | nil => intro _; simp [assocErase]
  | cons kv rest ih =>
    intro h
    obtain ⟨k1, v1⟩ := kv
    simp only [List.map_cons, List.mem_cons] at h
    push_neg at h
    simp only [List.cons_append, assocErase, if_neg (Ne.symm h.1)]
    exact congrArg (List.cons (k1, v1)) (ih h.2)

theorem assocGet_isSome_of_mem_keys {α : Type} (k : String) :
    ∀ l : List (String × α), k ∈ l.map Prod.fst → (assocGet l k).isSome := by
  intro l
  induction l with
  | nil => intro h; simp at h
  | cons kv rest ih =>
    intro h
    by_cases hk : kv.1 = k
    · simp [assocGet, hk]
    · simp only [List.map_cons, List.mem_cons] at h
      rcases h with h | h
      · exact absurd h.symm hk
      · simp only [assocGet, if_neg hk]
        exact ih h

theorem lookup_params_values :
    ∀ (kvs : List (String × PyVal)) (ps : List Param),
      kvs.map Prod.fst = ps.map Param.name → (kvs.map Prod.fst).Nodup →
      ps.map (fun p => (assocGet kvs p.name).getD PyVal.none) = kvs.map Prod.snd := by
  intro kvs
  induction kvs with
  | nil =>
    intro ps hk _
    have : ps = [] := by
      cases ps with
      | nil => rfl
      | cons p ps2 => simp at hk
    subst this
    rfl
  | cons kv rest ih =>
    intro ps hk hnd
    cases ps with
    | nil => simp at hk
    | cons p ps2 =>
      simp only [List.map_cons, List.cons.injEq] at hk
      simp only [List.map_cons, List.nodup_cons] at hnd
      have hhead : assocGet (kv :: rest) p.name = some kv.2 := by
        simp [assocGet, hk.1]
      have htail : ∀ q ∈ ps2,
          assocGet (kv :: rest) q.name = assocGet rest q.name := by
        intro q hq
        have : q.name ∈ rest.map Prod.fst := by
          rw [hk.2]; exact List.mem_map_of_mem Param.name hq
        have hne : kv.1 ≠ q.name := fun h => hnd.1 (h ▸ this)
        simp [assocGet, hne]
      simp only [List.map_cons, hhead, Option.getD_some, List.cons.injEq]
      refine ⟨trivial, ?_⟩
      rw [List.map_congr_left (fun q hq => by rw [htail q hq])]
      exact ih ps2 hk.2 hnd.2

theorem FitsL_mem {t : TypeRef} {x : PyVal} :
    ∀ {xs : List PyVal}, FitsL t xs = true → x ∈ xs → FitsT t x = true := by
  intro xs
  induction xs with
  | nil => intro _ h; simp at h
  | cons y ys ih =>
    intro hf h
    simp only [FitsL, Bool.and_eq_true] at hf
    rcases List.mem_cons.mp h with h | h
    · subst h; exact hf.1
    · exact ih hf.2 h

theorem default_from_dict_exact (c : String) (cd : ClassDef)
    (kvs : List (String × PyVal))
    (hkeys : kvs.map Prod.fst = cd.params.map Param.name)
    (hnd : (kvs.map Prod.fst).Nodup) :
    default_from_dict c cd (.dict kvs) = .ok (.obj c kvs) := by
  have hmem : ∀ p ∈ cd.params, (assocGet kvs p.name).isSome = true := by
    intro p hp
    apply assocGet_isSome_of_mem_keys
    rw [hkeys]
    exact List.mem_map_of_mem Param.name hp
  have hmatched : cd.params.filter (fun p => (assocGet kvs p.name).isSome) = cd.params :=
    List.filter_eq_self.mpr hmem
  have hunmatched : cd.params.filter (fun p => (assocGet kvs p.name).isNone) = [] := by
    rw [List.filter_eq_nil_iff]
    intro p hp
    have h := hmem p hp
    obtain ⟨v, hv⟩ := Option.isSome_iff_exists.mp h
    simp [hv]
  have hpos : cd.params.map (fun p => (assocGet kvs p.name).getD PyVal.none) =
      kvs.map Prod.snd := lookup_params_values kvs cd.params hkeys hnd
  simp only [default_from_dict, hmatched, hunmatched, hpos, ← hkeys, List.map_nil,
    List.any_nil, Bool.false_eq_true, if_false, List.append_nil]
  have h1 : List.take (List.map Prod.snd kvs).length (List.map Prod.fst kvs) =
      List.map Prod.fst kvs := by
    conv_lhs =>
      rw [show (List.map Prod.snd kvs).length = (List.map Prod.fst kvs).length by
        simp]
    exact List.take_length _
  have h2 : List.filter (fun kv => decide (kv.1 ∉ List.map Prod.fst kvs)) kvs = [] := by
    rw [List.filter_eq_nil_iff]
    intro kv hkv
    simp only [decide_eq_true_eq]
    exact not_not_intro (List.mem_map_of_mem Prod.fst hkv)
  rw [h1, h2]
  rw [show applyUpdates ((List.map Prod.fst kvs).zip (List.map Prod.snd kvs)) [] =
      (List.map Prod.fst kvs).zip (List.map Prod.snd kvs) from rfl]
  rw [List.zip_map']
  simp

theorem bindE_ok {α β : Type} (a : α) (f : α → Except Err β) :
    (Except.ok a >>= f) = f a := rfl

theorem bindE_error {α β : Type} (e : Err) (f : α → Except Err β) :
    ((Except.error e : Except Err α) >>= f) = Except.error e := rfl

theorem mapE_cons_ok {α β : Type} (f : α → Except Err β) (a : α) (as : List α)
    (b : β) (bs : List β) (ha : f a = .ok b) (has : mapE f as = .ok bs) :
    mapE f (a :: as) = .ok (b :: bs) := by
  simp [mapE, ha, has, Bind.bind, Except.bind]

theorem round_trip_aux (W : World) (S wc : Bool) :
    ∀ (n : Nat) (v : PyVal) (cand : Option TypeRef),
      pyDepth v ≤ n → WFv W wc v = true → annOK wc cand v = true →
      ∃ t, toDictF n W v ⟨true, S, wc⟩ = .ok t ∧
           fromDictF n W t cand ⟨true, S, wc⟩ = .ok v := by
  intro n
  induction n with
  | zero =>
    intro v cand hdep _ _
    have := pyDepth_pos v
    omega
  | succ n ih =>
    intro v cand hdep hwf hann
    have hKV : ∀ (cf : String → Option TypeRef) (ys : List (String × PyVal)),
        (∀ kv ∈ ys, pyDepth kv.2 ≤ n ∧ WFv W wc kv.2 = true ∧
          annOK wc (cf kv.1) kv.2 = true) →
        ∃ ts, mapE (fun kv => do
            let v2 ← toDictF n W kv.2 ⟨true, S, wc⟩
            Except.ok (kv.1, v2)) ys = .ok ts ∧
          ts.map Prod.fst = ys.map Prod.fst ∧
          mapE (fun kv => do
            let v2 ← fromDictF n W kv.2 (cf kv.1) ⟨true, S, wc⟩
            Except.ok (kv.1, v2)) ts = .ok ys := by
      intro cf ys
      induction ys with
      | nil => intro _; exact ⟨[], rfl, rfl, rfl⟩
      | cons kv rest ihy =>
        intro hall
        obtain ⟨t1, ht1, hf1⟩ := ih kv.2 (cf kv.1) (hall kv (by simp)).1
          (hall kv (by simp)).2.1 (hall kv (by simp)).2.2
        obtain ⟨ts, hts, hkeys, hfts⟩ := ihy (fun x hx => hall x (by simp [hx]))
        refine ⟨(kv.1, t1) :: ts, ?_, ?_, ?_⟩
        · exact mapE_cons_ok _ _ _ _ _ (by simp only [Bind.bind, Except.bind, ht1]) hts
        · simp [hkeys]
        · exact mapE_cons_ok _ _ _ _ _ (by simp only [Bind.bind, Except.bind, hf1]) hfts
    have hL : ∀ (c0 : Option TypeRef) (ys : List PyVal),
        (∀ y ∈ ys, pyDepth y ≤ n ∧ WFv W wc y = true ∧ annOK wc c0 y = true) →
        ∃ ts, mapE (fun x => toDictF n W x ⟨true, S, wc⟩) ys = .ok ts ∧
          mapE (fun x => fromDictF n W x c0 ⟨true, S, wc⟩) ts = .ok ys := by
      intro c0 ys
      induction ys with
      | nil => intro _; exact ⟨[], rfl, rfl⟩
      | cons y rest ihy =>
        intro hall
        obtain ⟨t1, ht1, hf1⟩ := ih y c0 (hall y (by simp)).1
          (hall y (by simp)).2.1 (hall y (by simp)).2.2
        obtain ⟨ts, hts, hfts⟩ := ihy (fun x hx => hall x (by simp [hx]))
        exact ⟨t1 :: ts, mapE_cons_ok _ _ _ _ _ ht1 hts,
          mapE_cons_ok _ _ _ _ _ hf1 hfts⟩
    cases v with
    | paramEmpty => simp [WFv] at hwf
    | none =>
      refine ⟨.none, by simp [toDictF, encode_step, stableMapE, embed_class,
        Bind.bind, Except.bind, Except.map], ?_⟩
      rcases cand with _ | t
      · simp [fromDictF, strip_class, fromBody, itemsFromDict, stableMapE,
          dispatch, Bind.bind, Except.bind, Except.map]
      · cases t with
        | builtinT b => simp [fromDictF, strip_class, fromBody, itemsFromDict,
            stableMapE, dispatch, Bind.bind, Except.bind, Except.map]
        | cls c => simp [annOK, FitsT] at hann
        | listOf t2 => simp [annOK, FitsT] at hann
        | union ts => simp [annOK, FitsT] at hann
        | literal vs => simp [annOK, FitsT] at hann
    | bool b0 =>
      refine ⟨.bool b0, by simp [toDictF, encode_step, stableMapE, embed_class,
        Bind.bind, Except.bind, Except.map], ?_⟩
      rcases cand with _ | t
      · simp [fromDictF, strip_class, fromBody, itemsFromDict, stableMapE,
          dispatch, Bind.bind, Except.bind, Except.map]
      · cases t with
        | builtinT b => simp [fromDictF, strip_class, fromBody, itemsFromDict,
            stableMapE, dispatch, Bind.bind, Except.bind, Except.map]
        | cls c => simp [annOK, FitsT] at hann
        | listOf t2 => simp [annOK, FitsT] at hann
        | union ts => simp [annOK, FitsT] at hann
        | literal vs => simp [annOK, FitsT] at hann
    | int n0 =>
      refine ⟨.int n0, by simp [toDictF, encode_step, stableMapE, embed_class,
        Bind.bind, Except.bind, Except.map], ?_⟩
      rcases cand with _ | t
      · simp [fromDictF, strip_class, fromBody, itemsFromDict, stableMapE,
          dispatch, Bind.bind, Except.bind, Except.map]
      · cases t with
        | builtinT b => simp [fromDictF, strip_class, fromBody, itemsFromDict,
            stableMapE, dispatch, Bind.bind, Except.bind, Except.map]
        | cls c => simp [annOK, FitsT] at hann
        | listOf t2 => simp [annOK, FitsT] at hann
        | union ts => simp [annOK, FitsT] at hann
        | literal vs => simp [annOK, FitsT] at hann
    | str s0 =>
      refine ⟨.str s0, by simp [toDictF, encode_step, stableMapE, embed_class,
        Bind.bind, Except.bind, Except.map], ?_⟩
      rcases cand with _ | t
      · simp [fromDictF, strip_class, fromBody, itemsFromDict, stableMapE,
          dispatch, Bind.bind, Except.bind, Except.map]
      · cases t with
        | builtinT b => simp [fromDictF, strip_class, fromBody, itemsFromDict,
            stableMapE, dispatch, Bind.bind, Except.bind, Except.map]
        | cls c => simp [annOK, FitsT] at hann
        | listOf t2 => simp [annOK, FitsT] at hann
        | union ts => simp [annOK, FitsT] at hann
        | literal vs => simp [annOK, FitsT] at hann
    | list xs =>
      have hdepxs : ∀ y ∈ xs, pyDepth y ≤ n := by
        intro y hy
        have h1 := pyDepthL_mem hy
        simp only [pyDepth] at hdep
        omega
      have hwfxs : ∀ y ∈ xs, WFv W wc y = true := by
        intro y hy
        exact WFl_mem W wc (by simpa [WFv] using hwf) hy
      rcases cand with _ | t
      · have hann2 : ∀ y ∈ xs, annOK wc Option.none y = true := by
          intro y hy
          cases hwc : wc with
          | true => simp [annOK]
          | false =>
            rw [hwc] at hann
            simp only [annOK, Bool.false_or, objFree] at hann
            simp [annOK, objFreeL_mem hann hy]
        obtain ⟨ts, hto, hfrom⟩ := hL Option.none xs
          (fun y hy => ⟨hdepxs y hy, hwfxs y hy, hann2 y hy⟩)
        refine ⟨.list ts, ?_, ?_⟩
        · simp [toDictF, encode_step, stableMapE, hto, embed_class,
            Bind.bind, Except.bind, Except.map]
        · simp [fromDictF, strip_class, fromBody, itemsFromDict, stableMapE,
            hfrom, dispatch, Bind.bind, Except.bind, Except.map]
      · cases t with
        | cls c => simp [annOK, FitsT] at hann
        | union ts => simp [annOK, FitsT] at hann
        | literal vs => simp [annOK, FitsT] at hann
        | builtinT b =>
          have hof : objFree (.list xs) = true := by
            simp only [annOK, FitsT, Bool.and_eq_true] at hann
            exact hann.2
          have hann2 : ∀ y ∈ xs, annOK wc Option.none y = true := by
            intro y hy
            simp only [objFree] at hof
            simp [annOK, objFreeL_mem hof hy]
          obtain ⟨ts, hto, hfrom⟩ := hL Option.none xs
            (fun y hy => ⟨hdepxs y hy, hwfxs y hy, hann2 y hy⟩)
          refine ⟨.list ts, ?_, ?_⟩
          · simp [toDictF, encode_step, stableMapE, hto, embed_class,
              Bind.bind, Except.bind, Except.map]
          · simp [fromDictF, strip_class, fromBody, itemsFromDict, stableMapE,
              hfrom, dispatch, Bind.bind, Except.bind, Except.map]
        | listOf t2 =>
          have hfits : FitsL t2 xs = true := by
            simpa [annOK, FitsT] using hann
          obtain ⟨ts, hto, hfrom⟩ := hL (some t2) xs
            (fun y hy => ⟨hdepxs y hy, hwfxs y hy, by simp [annOK, FitsL_mem hfits hy]⟩)
          refine ⟨.list ts, ?_, ?_⟩
          · simp [toDictF, encode_step, stableMapE, hto, embed_class,
              Bind.bind, Except.bind, Except.map]
          · simp [fromDictF, strip_class, fromBody, itemsFromDict, hfrom,
              dispatch, Bind.bind, Except.bind, Except.map]
    | dict kvs =>
      have hwfd := hwf
      simp only [WFv, Bool.and_eq_true, decide_eq_true_eq] at hwfd
      obtain ⟨hat, hwfkv⟩ := hwfd
      have hdepkv : ∀ kv ∈ kvs, pyDepth kv.2 ≤ n := by
        intro kv hkv
        obtain ⟨k1, v1⟩ := kv
        have h1 := pyDepthKV_mem hkv
        simp only [pyDepth] at hdep
        show pyDepth v1 ≤ n
        omega
      have hwfv2 : ∀ kv ∈ kvs, WFv W wc kv.2 = true := by
        intro kv hkv
        obtain ⟨k1, v1⟩ := kv
        exact WFkv_mem W wc hwfkv hkv
      have huntyped : (wc = true ∨ objFree (.dict kvs) = true) →
          ∃ t, toDictF (n + 1) W (.dict kvs) ⟨true, S, wc⟩ = .ok t ∧
            ∀ cand2 : Option TypeRef,
              (cand2 = Option.none ∨ ∃ b, cand2 = some (.builtinT b)) →
              fromDictF (n + 1) W t cand2 ⟨true, S, wc⟩ = .ok (.dict kvs) := by
        intro hcases
        have hann2 : ∀ kv ∈ kvs, annOK wc Option.none kv.2 = true := by
          intro kv hkv
          obtain ⟨k1, v1⟩ := kv
          rcases hcases with hwc | hof
          · simp [annOK, hwc]
          · simp only [objFree] at hof
            simp [annOK, objFreeKV_mem hof hkv]
        obtain ⟨ts, hto, hkeys, hfrom⟩ := hKV (fun _ => Option.none) kvs
          (fun kv hkv => ⟨hdepkv kv hkv, hwfv2 kv hkv, hann2 kv hkv⟩)
        have htsat : assocGet ts "@" = Option.none := by
          apply assocGet_eq_none_of_notin
          rw [hkeys]
          exact hat
        refine ⟨.dict ts, ?_, ?_⟩
        · simp only [toDictF, encode_step, bindE_ok, stableMapE]
          rw [hto]
          simp [embed_class, bindE_ok, Except.map]
        · intro cand2 hc2
          rcases hc2 with hc2 | ⟨b, hc2⟩ <;> subst hc2 <;>
            (simp only [fromDictF, strip_class, htsat, bindE_ok, fromBody,
              itemsFromDict, stableMapE]
             rw [hfrom]
             simp [dispatch, bindE_ok, Except.map])
      rcases cand with _ | t
      · have hc : wc = true ∨ objFree (.dict kvs) = true := by
          cases hwc : wc with
          | true => exact Or.inl rfl
          | false =>
            rw [hwc] at hann
            simp only [annOK, Bool.false_or] at hann
            exact Or.inr hann
        obtain ⟨t, hto2, hfrom2⟩ := huntyped hc
        exact ⟨t, hto2, hfrom2 Option.none (Or.inl rfl)⟩
      · cases t with
        | cls c => simp [annOK, FitsT] at hann
        | union ts => simp [annOK, FitsT] at hann
        | literal vs => simp [annOK, FitsT] at hann
        | listOf t2 => simp [annOK, FitsT] at hann
        | builtinT b =>
          have hof : objFree (.dict kvs) = true := by
            simp only [annOK, FitsT, Bool.and_eq_true] at hann
            exact hann.2
          obtain ⟨t, hto2, hfrom2⟩ := huntyped (Or.inr hof)
          exact ⟨t, hto2, hfrom2 (some (.builtinT b)) (Or.inr ⟨b, rfl⟩)⟩
    | obj c attrs =>
      cases hreg : assocGet W.reg c with
      | none => simp [WFv, hreg] at hwf
      | some m =>
        cases hcd : assocGet W.classes c with
        | none => simp [WFv, hreg, hcd] at hwf
        | some cd =>
          simp only [WFv, hreg, hcd, Bool.and_eq_true, decide_eq_true_eq] at hwf
          obtain ⟨⟨⟨⟨⟨⟨hts0, hfs0⟩, hq0⟩, hkeye⟩, hnd0⟩, hat0⟩, hfields⟩ := hwf
          have hperf : ∀ kv ∈ attrs, pyDepth kv.2 ≤ n ∧ WFv W wc kv.2 = true ∧
              annOK wc (assocGet cd.anns kv.1) kv.2 = true := by
            intro kv hkv
            obtain ⟨k1, v1⟩ := kv
            have hd := pyDepthKV_mem hkv
            simp only [pyDepth] at hdep
            have hwfk := WFfields_mem W wc cd.anns hfields hkv
            refine ⟨?_, hwfk.1, hwfk.2⟩
            show pyDepth v1 ≤ n
            omega
          obtain ⟨ts, hto, hkeys2, hfrom⟩ := hKV (fun k => assocGet cd.anns k)
            attrs hperf
          have hat2 : "@" ∉ ts.map Prod.fst := by
            rw [hkeys2]; exact hat0
          have hitems : itemsFromDict (fun o c2 => fromDictF n W o c2 ⟨true, S, wc⟩)
              W (.dict ts) (some (.cls c)) = .ok (.dict attrs) := by
            simp only [itemsFromDict, hcd]
            simp only [Option.map, Option.getD, Option.bind, stableMapE]
            rw [hfrom]
            rfl
          have hdisp : dispatch W (some (.cls c)) (.dict attrs) ⟨true, S, wc⟩ =
              .ok (.obj c attrs) := by
            simp [dispatch, hreg, hfs0, hcd,
              default_from_dict_exact c cd attrs hkeye hnd0]
          cases hwc : wc with
          | true =>
            subst hwc
            refine ⟨.dict (ts ++ [("@", .str m.regName)]), ?_, ?_⟩
            · have hset := assocSet_append_fresh "@" (PyVal.str m.regName) ts hat2
              simp only [toDictF, encode_step, hreg, hts0, default_to_dict,
                bindE_ok, stableMapE]
              rw [hto]
              simp [embed_class, hreg, hset, bindE_ok, Except.map]
            · have hstrip : strip_class W (.dict (ts ++ [("@", .str m.regName)]))
                  cand ⟨true, S, true⟩ = .ok (some (.cls c), .dict ts) := by
                simp [strip_class, assocGet_append_last "@" (PyVal.str m.regName) ts hat2,
                  hq0, assocErase_append_last "@" (PyVal.str m.regName) ts hat2]
              rw [fromDictF]
              rw [hstrip]
              simp [fromBody, hitems, hdisp, bindE_ok]
          | false =>
            subst hwc
            rcases cand with _ | t
            · simp [annOK, objFree] at hann
            · cases t with
              | builtinT b =>
                simp only [annOK, FitsT, Bool.and_eq_true] at hann
                cases b <;> simp [isinstB] at hann
              | union ts2 => simp [annOK, FitsT] at hann
              | literal vs => simp [annOK, FitsT] at hann
              | listOf t2 => simp [annOK, FitsT] at hann
              | cls c2 =>
                have hcc : c2 = c := by
                  simpa [annOK, FitsT] using hann
                subst hcc
                have htsat : assocGet ts "@" = Option.none :=
                  assocGet_eq_none_of_notin "@" ts hat2
                refine ⟨.dict ts, ?_, ?_⟩
                · simp only [toDictF, encode_step, hreg, hts0, default_to_dict,
                    bindE_ok, stableMapE]
                  rw [hto]
                  simp [embed_class, bindE_ok, Except.map]
                · rw [fromDictF]
                  simp [strip_class, htsat, fromBody, hitems, hdisp, bindE_ok]

/-- Claim C1: round-trip — for every type registered in the strategy
registry with the default strategies and every well-formed instance of it
(structural equality is the model's value equality),
`from_dict (to_dict x, T) = x` holds with the type passed explicitly as
the candidate, both when `options.with_cls` is true and when it is false
(the options value fixes the mode through `WFv`'s well-formedness, which
in the untagged mode requires annotations to pin down every nested
object). -/
theorem round_trip (W : World) (opts : Options) (c : String)
    (attrs : List (String × PyVal)) (n : Nat)
    (hrec : opts.recursively = true)
    (hwf : WFv W opts.with_cls (.obj c attrs) = true)
    (hdep : pyDepth (.obj c attrs) ≤ n) :
    ∃ t, toDictF n W (.obj c attrs) opts = .ok t ∧
         fromDictF n W t (some (.cls c)) opts = .ok (.obj c attrs) := by
  obtain ⟨R, S, C⟩ := opts
  have hrec2 : R = true := hrec
  subst hrec2
  have hwf2 : WFv W C (.obj c attrs) = true := hwf
  exact round_trip_aux W S C n (.obj c attrs) (some (.cls c)) hdep hwf2
    (by simp [annOK, FitsT])

/-- Witness for C1: the nested `Line`/`Point` instance of the spec's
scenario 2 round-trips through the engine with tag embedding on (tags
drive the nested reconstruction) and with tag embedding off (the field
annotations drive it, the target class passed explicitly). -/
theorem round_trip_witness :
    (∃ t, toDictF 5 lineWorld lineVal {} = .ok t ∧
      fromDictF 5 lineWorld t (some (.cls "Line")) {} = .ok lineVal) ∧
    (∃ t, toDictF 5 lineWorld lineVal { with_cls := false } = .ok t ∧
      fromDictF 5 lineWorld t (some (.cls "Line")) { with_cls := false } =
        .ok lineVal) := by
  constructor
  · exact round_trip lineWorld {} "Line"
      [("a", pointVal 1 2), ("b", pointVal 3 4)] 5 rfl (by decide) (by decide)
  · exact round_trip lineWorld { with_cls := false } "Line"
      [("a", pointVal 1 2), ("b", pointVal 3 4)] 5 rfl (by decide) (by decide)

end Autodict
